import Mathlib

/-!
# lodtree2vts: tile mapping, model cache, tile assembly and input tiles

A shallow embedding of `src/tools/src/tools/lodtree2vts.cpp`.

Conventions of the embedding.

* A C++ `double` is an exact rational (`Double := ℚ`): the arithmetic of
  `tiled` and `tileRange` is carried out without rounding.
* A tile index is the `unsigned int` of vts-libs, 32 bits wide: an integer
  from 0 to 2^32 - 1.  The conversion of a `double` to a tile index truncates
  toward zero; it is defined in C++ when the truncated value is such an
  integer (`representable`).  For any other value `toIndex` yields the
  truncated value modulo 2^32, and the theorems that compare tile ranges
  state which conversions they need to be defined.
* `vts::TileRange r(math::InvalidExtents{})` is the neutral element of
  `update`; it is represented by `none`, a range that holds at least one
  point by `some`.
* Operations of the libraries the tool is linked with (coordinate
  conversion, the `vts::NodeInfo` lookup, mesh clipping, ...) are arguments
  of the definitions that call them; a conversion that throws is `none`.
* `std::map` and `std::list` are lists; a loop over a container is a fold.
  A counting loop `for (Index i = lo; i <= hi; ++i)` is a fold over the
  values lo .. hi; with hi = 2^32 - 1 the C++ loop does not end, and what is
  proved of a built mapping is about a constructor that returns.
* An access past the end of a vector or a list (`input_[id]`, `atlas.get(i)`,
  `area[depth]`, `pop_back` on an empty list) is undefined behaviour; the
  definitions that can run into one return `Outcome.undefined` or `none`.
-/

namespace Lodtree2vts

/-! ## Geometry (`math::`) -/

/-- C++ `double`, idealised as an exact rational number. -/
abbrev Double := ℚ

/-- Tile index and tile-range coordinate, the `unsigned int` of vts-libs: an
integer from 0 to 2^32 - 1. -/
abbrev Index := ℤ

/-- Level of detail. -/
abbrev Lod := ℕ

/-- Spatial reference system definition (an identifier). -/
abbrev Srs := String

/-- The type `math::Point2`. -/
structure Point2 where
  x : Double
  y : Double
deriving DecidableEq

instance : Add Point2 := ⟨fun a b => ⟨a.x + b.x, a.y + b.y⟩⟩

instance : Sub Point2 := ⟨fun a b => ⟨a.x - b.x, a.y - b.y⟩⟩

/-- The type `math::Point3`. -/
structure Point3 where
  x : Double
  y : Double
  z : Double
deriving DecidableEq

instance : Add Point3 := ⟨fun a b => ⟨a.x + b.x, a.y + b.y, a.z + b.z⟩⟩

/-- The type `math::Size2f`. -/
structure Size2f where
  width : Double
  height : Double
deriving DecidableEq

/-- The type `math::Extents2`: lower-left and upper-right corner. -/
structure Extents2 where
  ll : Point2
  ur : Point2
deriving DecidableEq

/-- Upper-left corner, `math::ul`. -/
def ul (e : Extents2) : Point2 := ⟨e.ll.x, e.ur.y⟩

/-- Upper-right corner, `math::ur`. -/
def ur (e : Extents2) : Point2 := ⟨e.ur.x, e.ur.y⟩

/-- Lower-right corner, `math::lr`. -/
def lr (e : Extents2) : Point2 := ⟨e.ur.x, e.ll.y⟩

/-- Lower-left corner, `math::ll`. -/
def ll (e : Extents2) : Point2 := ⟨e.ll.x, e.ll.y⟩

/-- Size of an extents, `math::size`. -/
def size (e : Extents2) : Size2f := ⟨e.ur.x - e.ll.x, e.ur.y - e.ll.y⟩

/-- Point-in-extents test, `math::inside` (borders included). -/
def inside (e : Extents2) (p : Point2) : Bool :=
  decide (e.ll.x ≤ p.x) && decide (p.x ≤ e.ur.x)
    && decide (e.ll.y ≤ p.y) && decide (p.y ≤ e.ur.y)

/-- Truncation of a `double` toward zero, the first step of its conversion
to an integral type. -/
def truncate (d : Double) : ℤ := if 0 ≤ d then ⌊d⌋ else ⌈d⌉

/-- Whether the conversion of a `double` to a tile index is defined: the
truncated value is one of 0 .. 2^32 - 1. -/
def representable (d : Double) : Prop := 0 ≤ truncate d ∧ truncate d < 2 ^ 32

instance (d : Double) : Decidable (representable d) := by
  unfold representable; infer_instance

/-- Conversion of a `double` to a tile index, an `unsigned int` of 32 bits:
the truncated value when it is representable, and otherwise (where the C++
conversion is undefined) the truncated value modulo 2^32. -/
def toIndex (d : Double) : Index := truncate d % 2 ^ 32

/-! ## Tiles, nodes and the reference frame (`vts::`, `vr::`) -/

/-- The type `vts::TileId`. -/
structure TileId where
  lod : Lod
  x : Index
  y : Index
deriving DecidableEq

/-- The type `vr::ReferenceFrame::Division::Node::Id`. -/
structure NodeId where
  lod : Lod
  x : Index
  y : Index
deriving DecidableEq

/-- Conversion `vts::tileId(nodeId)`. -/
def tileId (n : NodeId) : TileId := ⟨n.lod, n.x, n.y⟩

/-- Conversion of a tile id to the node id of the same tile. -/
def nodeId (t : TileId) : NodeId := ⟨t.lod, t.x, t.y⟩

/-- The type `vr::ReferenceFrame::Division::Node`, with the fields the tool
reads; `valid` is the result of `node.valid()`. -/
structure Node where
  id : NodeId
  srs : Srs
  extents : Extents2
  valid : Bool
deriving DecidableEq

/-- The type `vr::ReferenceFrame`: `nodes` lists the values of
`division.nodes` in iteration order, `physicalSrs` is `model.physicalSrs`. -/
structure ReferenceFrame where
  nodes : List Node
  physicalSrs : Srs

/-- The type `vts::NodeInfo`, with what the tool reads from it:
`subtreeRoot` is `subtree().root().id`. -/
structure NodeInfo where
  nodeId : NodeId
  subtreeRoot : NodeId
  srs : Srs
  extents : Extents2

/-- A point of a tile range, `vts::TileRange::point_type`. -/
structure TilePoint where
  x : Index
  y : Index
deriving DecidableEq

/-- A tile range that holds at least one point, `vts::TileRange`. -/
structure TileRange where
  ll : TilePoint
  ur : TilePoint
deriving DecidableEq

/-- Growing a range by a point, `math::update`; `none` is the invalid range
`math::InvalidExtents`. -/
def update (r : Option TileRange) (p : TilePoint) : Option TileRange :=
  match r with
  | none => some ⟨p, p⟩
  | some r => some ⟨⟨min r.ll.x p.x, min r.ll.y p.y⟩, ⟨max r.ur.x p.x, max r.ur.y p.y⟩⟩

/-- Modelled from the spec: `vts::tileSize`, the footprint of one tile at a
local level, the node extents split into 2^lod by 2^lod tiles. -/
def tileSize (e : Extents2) (lod : Lod) : Size2f :=
  ⟨(size e).width / 2 ^ lod, (size e).height / 2 ^ lod⟩

/-! ## Input tiles -/

/-- One node of the LODTreeExport hierarchy, `LodTreeNode`. -/
inductive LodTreeNode where
  | mk (radius minRange : Double) (origin : Point3)
      (modelPath : String) (children : List LodTreeNode) : LodTreeNode

/-- The model path of a node. -/
def LodTreeNode.modelPath : LodTreeNode → String
  | .mk _ _ _ p _ => p

/-- The origin of a node. -/
def LodTreeNode.origin : LodTreeNode → Point3
  | .mk _ _ o _ _ => o

/-- The children of a node. -/
def LodTreeNode.children : LodTreeNode → List LodTreeNode
  | .mk _ _ _ _ c => c

/-- The type `InputTile`; `node` holds the node the pointer refers to. -/
structure InputTile where
  id : ℤ
  depth : ℤ
  dstLod : ℤ
  node : LodTreeNode
  extents : Extents2
  physArea : Double
  texArea : Double
  loadCnt : ℤ

/-! ## Tile mapping -/

/-- Function `tiled`: tile-grid coordinates of a point. -/
def tiled (ts : Size2f) (origin p : Point2) : TilePoint :=
  let loc := p - origin
  ⟨toIndex (loc.x / ts.width), toIndex (-loc.y / ts.height)⟩

/-- The four inflation offsets of `tileRange`. -/
def inflates (isize : Size2f) : List Point2 :=
  [⟨-isize.width, isize.height⟩, ⟨isize.width, isize.height⟩,
   ⟨isize.width, -isize.height⟩, ⟨-isize.width, -isize.height⟩]

/-- Function `tileRange`: the range of tiles of the node grid at `localLod`
hit by the points, each inflated by the margin. -/
def tileRange (node : Node) (localLod : Lod) (points : List Point2)
    (margin : Double) : Option TileRange :=
  let ts := tileSize node.extents localLod
  let origin := ul node.extents
  let isize : Size2f := ⟨ts.width * margin, ts.height * margin⟩
  points.foldl
    (fun r p => (inflates isize).foldl
      (fun r inflate => update r (tiled ts origin (p + inflate))) r)
    none

/-- The values taken by a loop counter running from `lo` to `hi`
inclusive. -/
def indexRange (lo hi : Index) : List Index :=
  (List.range (hi + 1 - lo).toNat).map (fun (k : ℕ) => lo + (k : ℤ))

section Mapping

/- `subtreeRoot rf t` is `vts::NodeInfo(rf, t).subtree().root().id`, the id
of the division node whose sub-tree holds tile `t`. -/
variable (subtreeRoot : ReferenceFrame → TileId → NodeId)

/- `csConvertor src dst` is `vts::CsConvertor(src, dst)`; `none` is a thrown
exception. -/
variable (csConvertor : Srs → Srs → Point2 → Option Point2)

/-- Construction `vts::NodeInfo(referenceFrame, tileId)`, restricted to the
node id and the root of the sub-tree. -/
def nodeInfoOf (referenceFrame : ReferenceFrame) (t : TileId) : NodeId × NodeId :=
  (nodeId t, subtreeRoot referenceFrame t)

/-- Function `forEachTile`: rows `j`, then columns `i`, of the range. -/
def forEachTile {σ : Type} (referenceFrame : ReferenceFrame) (lod : Lod)
    (tileRange : Option TileRange) (op : NodeId × NodeId → σ → σ) (s : σ) : σ :=
  match tileRange with
  | none => s
  | some r =>
    (indexRange r.ll.y r.ur.y).foldl
      (fun s j => (indexRange r.ll.x r.ur.x).foldl
        (fun s i => op (nodeInfoOf subtreeRoot referenceFrame ⟨lod, i, j⟩) s) s)
      s

/-- Function `rasterizeTiles`: `op` runs on the tiles of the range that lie
in the sub-tree of `rootNode`. -/
def rasterizeTiles {σ : Type} (referenceFrame : ReferenceFrame) (rootNode : Node)
    (lod : Lod) (tileRange : Option TileRange) (op : TileId → σ → σ) (s : σ) : σ :=
  forEachTile subtreeRoot referenceFrame lod tileRange
    (fun ni s => if ni.2 = rootNode.id then op (tileId ni.1) s else s) s

/-- The loop of `projectCorners`; `dst` holds the corners converted so far. -/
def projectCornersLoop (node : Node) (conv : Point2 → Option Point2) :
    List Point2 → List Point2 → List Point2
  | [], dst => dst
  | c :: cs, dst =>
    match conv c with
    | none => []
    | some d => if !inside node.extents d then [] else
        projectCornersLoop node conv cs (dst ++ [d])

/-- Function `projectCorners`: the converted corners, or the empty list when
a conversion throws or a converted corner is outside the node extents. -/
def projectCorners (node : Node) (conv : Point2 → Option Point2)
    (src : List Point2) : List Point2 :=
  projectCornersLoop node conv src []

/-- Parent of a tile, `vts::parent`: one level up, indices halved. -/
def parent (t : TileId) : TileId := ⟨t.lod - 1, t.x / 2, t.y / 2⟩

/-- The ancestors of the tile `(lod, x, y)`, nearest first, down to level 0. -/
def ancestorsFrom : Lod → Index → Index → List TileId
  | 0, _, _ => []
  | l + 1, x, y => ⟨l, x / 2, y / 2⟩ :: ancestorsFrom l (x / 2) (y / 2)

/-- The ancestors of a tile within its sub-tree, down to level 0. -/
def ancestors (t : TileId) : List TileId := ancestorsFrom t.lod t.x t.y

/-- Modelled from the spec: the type `vts::TileIndex` of vts-libs, reduced
to the set of tiles with a non-zero flag. -/
structure TileIndex where
  tiles : List TileId

/-- Modelled from the spec: marking a tile, `TileIndex::set(id, 1)` of
vts-libs. -/
def TileIndex.set (ti : TileIndex) (id : TileId) : TileIndex :=
  if id ∈ ti.tiles then ti else ⟨ti.tiles ++ [id]⟩

/-- Modelled from the spec: the deepest level of a marked tile,
`TileIndex::maxLod()` of vts-libs. -/
def TileIndex.maxLod (ti : TileIndex) : Lod :=
  (ti.tiles.map (fun t => t.lod)).foldl max 0

/-- Modelled from the spec: the clone of an index over a range of levels,
`TileIndex(LodRange(lo, hi), &other)` of vts-libs. -/
def TileIndex.ofRange (lo hi : Lod) (other : TileIndex) : TileIndex :=
  ⟨other.tiles.filter (fun t => decide (lo ≤ t.lod) && decide (t.lod ≤ hi))⟩

/-- Modelled from the spec: `TileIndex::complete()`, which is part of
vts-libs and not of the sources; it yields the smallest set that contains
every marked tile and is closed under "parent of" down to level 0. -/
def TileIndex.complete (ti : TileIndex) : TileIndex :=
  ⟨ti.tiles ++ ti.tiles.flatMap ancestors⟩

/-- Lookup in the map `sourceInfo_`, `std::map::find`. -/
def find : List (TileId × List ℤ) → TileId → Option (List ℤ)
  | [], _ => none
  | (k, vs) :: rest, t => if k = t then some vs else find rest t

/-- The statement `sourceInfo_[id].push_back(v)`: the entry of `id` is
created when it is missing. -/
def pushBack : List (TileId × List ℤ) → TileId → ℤ → List (TileId × List ℤ)
  | [], id, v => [(id, [v])]
  | (k, vs) :: rest, id, v =>
    if k = id then (k, vs ++ [v]) :: rest else (k, vs) :: pushBack rest id v

/-- The class `TileMapping`. -/
structure TileMapping where
  sourceInfo_ : List (TileId × List ℤ)
  dstTi_ : TileIndex
  validTree_ : TileIndex

/-- The body of the lambda passed to `rasterizeTiles` by the constructor. -/
def TileMapping.add (tile : InputTile) (id : TileId) (m : TileMapping) : TileMapping :=
  { m with sourceInfo_ := pushBack m.sourceInfo_ id tile.id
           dstTi_ := m.dstTi_.set id }

/-- Conversion of an `int` level to `vts::Lod`, an unsigned integer of 8
bits in vts-libs: the value modulo 256. -/
def toLod (l : ℤ) : Lod := (l % 256).toNat

/-- The corners of the extents of an input tile, in the order of the
constructor: upper left, upper right, lower right, lower left. -/
def srcCornersOf (tile : InputTile) : List Point2 :=
  [ul tile.extents, ur tile.extents, lr tile.extents, ll tile.extents]

/-- The body of the loop over the division nodes in the constructor of
`TileMapping`, for one input tile and one node. -/
def TileMapping.mapNode (inputSRS : Srs) (dstRf : ReferenceFrame) (margin : Double)
    (tile : InputTile) (m : TileMapping) (node : Node) : TileMapping :=
  if !node.valid then m else
  let dstCorners := projectCorners node (csConvertor inputSRS node.srs) (srcCornersOf tile)
  if dstCorners.isEmpty then m else
  let dstLocalLod : Lod := toLod (tile.dstLod - node.id.lod)
  let tr := tileRange node dstLocalLod dstCorners margin
  rasterizeTiles subtreeRoot dstRf node (toLod tile.dstLod) tr (TileMapping.add tile) m

/-- The body of the loop over the input tiles in the constructor. -/
def TileMapping.mapTile (inputSRS : Srs) (dstRf : ReferenceFrame) (margin : Double)
    (m : TileMapping) (tile : InputTile) : TileMapping :=
  dstRf.nodes.foldl (TileMapping.mapNode subtreeRoot csConvertor inputSRS dstRf margin tile) m

/-- The constructor `TileMapping::TileMapping`. -/
def TileMapping.build (inputTiles : List InputTile) (inputSRS : Srs)
    (dstRf : ReferenceFrame) (margin : Double) : TileMapping :=
  let m := inputTiles.foldl (TileMapping.mapTile subtreeRoot csConvertor inputSRS dstRf margin)
    ⟨[], ⟨[]⟩, ⟨[]⟩⟩
  { m with validTree_ := (TileIndex.ofRange 0 m.dstTi_.maxLod m.dstTi_).complete }

/-- The method `TileMapping::source`. -/
def TileMapping.source (m : TileMapping) (tileId : TileId) : List ℤ :=
  match find m.sourceInfo_ tileId with
  | none => []
  | some l => l

/-- The method `TileMapping::size`. -/
def TileMapping.size (m : TileMapping) : ℕ := m.sourceInfo_.length

/-- The method `TileMapping::validTree`. -/
def TileMapping.validTree (m : TileMapping) : TileIndex := m.validTree_

/-- The tiles of a range at a level, in the order `forEachTile` visits
them. -/
def cells (lod : Lod) : Option TileRange → List TileId
  | none => []
  | some r => (indexRange r.ll.y r.ur.y).flatMap
      (fun j => (indexRange r.ll.x r.ur.x).map (fun i => (⟨lod, i, j⟩ : TileId)))

/-- The tile ids the constructor appends an input tile to on behalf of one
division node, in order. -/
def nodeTiles (inputSRS : Srs) (dstRf : ReferenceFrame) (margin : Double)
    (tile : InputTile) (node : Node) : List TileId :=
  if !node.valid then [] else
  let dstCorners := projectCorners node (csConvertor inputSRS node.srs) (srcCornersOf tile)
  if dstCorners.isEmpty then [] else
  (cells (toLod tile.dstLod)
      (tileRange node (toLod (tile.dstLod - node.id.lod)) dstCorners margin)).filter
    (fun t => decide (subtreeRoot dstRf t = node.id))

/-- The tile ids the constructor appends an input tile to, in order. -/
def tileTiles (inputSRS : Srs) (dstRf : ReferenceFrame) (margin : Double)
    (tile : InputTile) : List TileId :=
  dstRf.nodes.flatMap (nodeTiles subtreeRoot csConvertor inputSRS dstRf margin tile)

end Mapping

/-- Every key of `sourceInfo_` is marked in `dstTi_`. -/
def keysMarked (m : TileMapping) : Prop :=
  ∀ t, find m.sourceInfo_ t ≠ none → t ∈ m.dstTi_.tiles

/-- The keys of the map `sourceInfo_`, in the order of the list that
represents the map. -/
def keys (si : List (TileId × List ℤ)) : List TileId := si.map (fun e => e.1)

/-- The map `sourceInfo_` has no key twice and no empty contributor list. -/
def wellKeyed (si : List (TileId × List ℤ)) : Prop :=
  (keys si).Nodup ∧ ∀ e ∈ si, e.2 ≠ []

/-- Membership of the tile column `i` and row `j` in a tile range. -/
def inRange : Option TileRange → Index → Index → Prop
  | none, _, _ => False
  | some r, i, j => r.ll.x ≤ i ∧ i ≤ r.ur.x ∧ r.ll.y ≤ j ∧ j ≤ r.ur.y

instance (r : Option TileRange) (i j : Index) : Decidable (inRange r i j) := by
  cases r <;> unfold inRange <;> infer_instance

/-- Whether the two conversions of `tiled` are defined at a point: the tile
size is not zero and each quotient converts to a tile index. -/
def tiledDefined (ts : Size2f) (origin p : Point2) : Prop :=
  ts.width ≠ 0 ∧ ts.height ≠ 0
    ∧ representable ((p - origin).x / ts.width) ∧ representable (-(p - origin).y / ts.height)

instance (ts : Size2f) (origin p : Point2) : Decidable (tiledDefined ts origin p) := by
  unfold tiledDefined; infer_instance

/-- Whether every conversion `tileRange` performs is defined: `tiled` is
defined at every point inflated by the margin. -/
def tileRangeDefined (node : Node) (localLod : Lod) (points : List Point2)
    (margin : Double) : Prop :=
  ∀ p ∈ points, ∀ inflate ∈ inflates ⟨(tileSize node.extents localLod).width * margin,
      (tileSize node.extents localLod).height * margin⟩,
    tiledDefined (tileSize node.extents localLod) (ul node.extents) (p + inflate)

instance (node : Node) (localLod : Lod) (points : List Point2) (margin : Double) :
    Decidable (tileRangeDefined node localLod points margin) := by
  unfold tileRangeDefined; infer_instance

/-! ## Models and the model cache -/

/-- Modelled from the spec: the type `vts::SubMesh` of vts-libs: vertices,
per-vertex texture coordinates, and triangles as vertex and
texture-coordinate indices. -/
structure SubMesh where
  vertices : List Point3
  tc : List Point2
  faces : List (ℕ × ℕ × ℕ)
  facesTc : List (ℕ × ℕ × ℕ)
deriving DecidableEq

/-- Modelled from the spec: `SubMesh::empty()` of vts-libs, a submesh
without geometry. -/
def SubMesh.empty (sm : SubMesh) : Bool := sm.vertices.isEmpty

/-- Modelled from the spec: the type `vts::Mesh` of vts-libs, a list of
submeshes; `add` appends, `empty()` tests for no submesh. -/
abbrev Mesh := List SubMesh

/-- A raw image buffer, `vts::RawAtlas::Image`. -/
abbrev Image := List ℕ

/-- Modelled from the spec: the type `vts::RawAtlas` of vts-libs, an ordered
list of image buffers; `add` appends, `get(i)` is the buffer at index `i`. -/
abbrev RawAtlas := List Image

/-- The type `Model`: a model loaded in memory. -/
structure Model where
  id : ℤ
  mesh : Mesh
  atlas : RawAtlas
deriving DecidableEq

/-- The constructor `Model(int id)`: nothing loaded yet. -/
def Model.create (id : ℤ) : Model := ⟨id, [], []⟩

/-- One mesh of an imported scene, `aiMesh`, with what `Model::load` reads:
the vertices, the texture coordinates of channel 0 (one per vertex), the
index lists of the faces, and `texFile`, the result of
`textureFile(scene, mesh, 0)`. -/
structure AiMesh where
  mVertices : List Point3
  mTextureCoords : List Point3
  mFaces : List (List ℕ)
  texFile : String

/-- The files the tool reads. `readFile` is `Assimp::Importer::ReadFile`,
`none` for a null scene; `readBinary` reads a whole file through
`utility::ifstreambuf`, `none` for a `std::ifstream::failure`; `sibling p f`
is the path `p.parent_path() / f`. -/
structure Files where
  readFile : String → Option (List AiMesh)
  readBinary : String → Option Image
  sibling : String → String → String

/-- The body of the loop over the meshes of a scene in `Model::load`. -/
def Model.loadMesh (fs : Files) (path : String) (origin : Point3) (m : Model)
    (aimesh : AiMesh) : Model :=
  let submesh : SubMesh :=
    { vertices := aimesh.mVertices.map (fun v => origin + v)
      tc := (aimesh.mTextureCoords.take aimesh.mVertices.length).map (fun tc => ⟨tc.x, tc.y⟩)
      faces := aimesh.mFaces.map (fun idx => (idx.getD 0 0, idx.getD 1 0, idx.getD 2 0))
      facesTc := aimesh.mFaces.map (fun idx => (idx.getD 0 0, idx.getD 1 0, idx.getD 2 0)) }
  let m := { m with mesh := m.mesh ++ [submesh] }
  let texPath := if aimesh.texFile ≠ "" then fs.sibling path aimesh.texFile
    else "/home/jakub/empty.jpg"
  match fs.readBinary texPath with
  | some buffer => { m with atlas := m.atlas ++ [buffer] }
  | none => m

/-- The method `Model::load`; `none` is the exception thrown when the scene
cannot be read. -/
def Model.load (fs : Files) (m : Model) (path : String) (origin : Point3) : Option Model :=
  match fs.readFile path with
  | none => none
  | some scene => some (scene.foldl (Model.loadMesh fs path origin) m)

/-- How a call ends: it returns a value, it throws, or its behaviour is
undefined; the first two carry the cache they leave behind. -/
inductive Outcome (σ α : Type) where
  | returned (s : σ) (a : α) : Outcome σ α
  | threw (s : σ) : Outcome σ α
  | undefined : Outcome σ α

/-- The class `ModelCache`; `cache_` is most recently used first. -/
structure ModelCache where
  input_ : List InputTile
  cacheLimit_ : ℕ
  hitCnt_ : ℤ
  missCnt_ : ℤ
  cache_ : List Model

/-- The constructor of `ModelCache`. -/
def ModelCache.create (input : List InputTile) (cacheLimit : ℕ) : ModelCache :=
  ⟨input, cacheLimit, 0, 0, []⟩

/-- The loop `while (cache_.size() >= cacheLimit_) cache_.pop_back()` of
`ModelCache::get`, with a bound on the number of iterations; `none` is
`pop_back` on an empty list, which is undefined. -/
def releaseLoop (cacheLimit : ℕ) : ℕ → List Model → Option (List Model)
  | 0, _ => none
  | fuel + 1, cache =>
    if cache.length ≥ cacheLimit then
      (if cache.isEmpty then none else releaseLoop cacheLimit fuel cache.dropLast)
    else some cache

/-- The access `input_[id]`; `none` when the index is out of bounds. -/
def inputAt (input : List InputTile) (id : ℤ) : Option InputTile :=
  if 0 ≤ id then input[id.toNat]? else none

/-- The statement `intile.loadCnt++` on element `id` of the input list. -/
def bumpLoadCnt (input : List InputTile) (id : ℤ) : List InputTile :=
  input.modify (fun t => { t with loadCnt := t.loadCnt + 1 }) id.toNat

/-- The method `ModelCache::get`, run by one thread. A model of `cache_` is
the object a shared pointer refers to, in the state the call leaves it in: on
a miss the new model is pushed to the front before it is loaded, so a load
that throws leaves the model it was given in the list. -/
def ModelCache.get (fs : Files) (c : ModelCache) (id : ℤ) : Outcome ModelCache Model :=
  match c.cache_.find? (fun ptr => decide (ptr.id = id)) with
  | some ptr =>
    .returned { c with hitCnt_ := c.hitCnt_ + 1
                       cache_ := ptr :: c.cache_.eraseP (fun p => decide (p.id = id)) } ptr
  | none =>
    match releaseLoop c.cacheLimit_ (c.cache_.length + 1) c.cache_ with
    | none => .undefined
    | some kept =>
      match inputAt c.input_ id with
      | none => .undefined
      | some intile =>
        match (Model.create id).load fs intile.node.modelPath intile.node.origin with
        | none =>
          .threw { c with missCnt_ := c.missCnt_ + 1, cache_ := Model.create id :: kept }
        | some loaded =>
          .returned { c with missCnt_ := c.missCnt_ + 1, cache_ := loaded :: kept
                             input_ := bumpLoadCnt c.input_ id } loaded

/-- The state a call leaves behind, when its behaviour is defined. -/
def Outcome.state? {σ α : Type} : Outcome σ α → Option σ
  | .returned s _ => some s
  | .threw s => some s
  | .undefined => none

/-- The value a call returns, when it returns. -/
def Outcome.value? {σ α : Type} : Outcome σ α → Option α
  | .returned _ a => some a
  | .threw _ => none
  | .undefined => none

/-- Whether a call ends by throwing. -/
def Outcome.isThrew {σ α : Type} : Outcome σ α → Bool
  | .threw _ => true
  | _ => false

/-- Whether the behaviour of a call is undefined. -/
def Outcome.isUndefined {σ α : Type} : Outcome σ α → Bool
  | .undefined => true
  | _ => false

/-- A sequence of `get` calls by one caller, who goes on after a `get` that
threw; `none` when a call has undefined behaviour. -/
def ModelCache.gets (fs : Files) : ModelCache → List ℤ → Option ModelCache
  | c, [] => some c
  | c, id :: ids =>
    match (c.get fs id).state? with
    | some c1 => ModelCache.gets fs c1 ids
    | none => none

/-- The recency order after one more request: the requested id moves to the
front. -/
def recencyStep (r : List ℤ) (x : ℤ) : List ℤ := x :: r.filter (fun y => !decide (y = x))

/-- The distinct ids of a sequence of requests, most recently requested
first. -/
def recency (ids : List ℤ) : List ℤ := ids.foldl recencyStep []

/-- The ids of the models of the list `cache_`, front first. -/
def ModelCache.ids (c : ModelCache) : List ℤ := c.cache_.map (fun m => m.id)

/-! ## The encoder -/

/-- The type `Config`. -/
structure Config where
  referenceFrame : String
  textureQuality : ℤ

/-- The result of `generate`, `Encoder::TileResult`: no data yet, or a tile
with a mesh and an optional atlas. -/
inductive TileResult where
  | noDataYet : TileResult
  | tile (mesh : Mesh) (atlas : Option RawAtlas) : TileResult
deriving DecidableEq

/-- The mesh operations of vts-libs that `generate` calls: `vts::clip` and
`mergeSubmeshes`, which returns the merged mesh and the merged atlas. -/
structure MeshOps where
  clip : SubMesh → Extents2 → SubMesh
  mergeSubmeshes : TileId → Mesh → RawAtlas → ℤ → Mesh × RawAtlas

/-- The class `Encoder`, with the members `generate` reads;
`referenceFrame` is the result of `referenceFrame()`. -/
structure Encoder where
  inputSrs_ : Srs
  config_ : Config
  referenceFrame : ReferenceFrame
  tileMap_ : TileMapping
  modelCache_ : ModelCache

/-- The loop of `warpInPlace` over the vertices; `none` when a conversion
throws. -/
def convertAll (conv : Point3 → Option Point3) : List Point3 → Option (List Point3)
  | [] => some []
  | v :: vs =>
    match conv v with
    | none => none
    | some w =>
      match convertAll conv vs with
      | none => none
      | some ws => some (w :: ws)

/-- Function `warpInPlace`: the submesh with every vertex converted. -/
def warpInPlace (conv : Point3 → Option Point3) (sm : SubMesh) : Option SubMesh :=
  match convertAll conv sm.vertices with
  | none => none
  | some vs => some { sm with vertices := vs }

/-- The loop of `generate` that fetches the models of the source ids from
the cache. -/
def getModels (fs : Files) : ModelCache → List ℤ → Outcome ModelCache (List Model)
  | c, [] => .returned c []
  | c, id :: ids =>
    match c.get fs id with
    | .returned c1 m =>
      match getModels fs c1 ids with
      | .returned c2 ms => .returned c2 (m :: ms)
      | .threw c2 => .threw c2
      | .undefined => .undefined
    | .threw c1 => .threw c1
    | .undefined => .undefined

/-- The loop of `generate` over the submeshes of one model; `smIndex` counts
the submeshes, the pair holds the output mesh and the output atlas. An atlas
index out of bounds is undefined. -/
def addSubmeshes (ops : MeshOps) (src2DstSds sds2DstPhy : Point3 → Option Point3)
    (clipExtents : Extents2) (model : Model) :
    List SubMesh → ℕ → Mesh × RawAtlas → Outcome Unit (Mesh × RawAtlas)
  | [], _, out => .returned () out
  | submesh :: rest, smIndex, (mesh, atlas) =>
    match warpInPlace src2DstSds submesh with
    | none => .threw ()
    | some copy =>
      if !(ops.clip copy clipExtents).empty then
        match warpInPlace sds2DstPhy (ops.clip copy clipExtents) with
        | none => .threw ()
        | some clipped =>
          match model.atlas[smIndex]? with
          | none => .undefined
          | some image =>
            addSubmeshes ops src2DstSds sds2DstPhy clipExtents model rest (smIndex + 1)
              (mesh ++ [clipped], atlas ++ [image])
      else
        addSubmeshes ops src2DstSds sds2DstPhy clipExtents model rest (smIndex + 1)
          (mesh, atlas)

/-- The loop of `generate` over the source models. -/
def addModels (ops : MeshOps) (src2DstSds sds2DstPhy : Point3 → Option Point3)
    (clipExtents : Extents2) : List Model → Mesh × RawAtlas → Outcome Unit (Mesh × RawAtlas)
  | [], out => .returned () out
  | model :: rest, out =>
    match addSubmeshes ops src2DstSds sds2DstPhy clipExtents model model.mesh 0 out with
    | .returned _ out1 => addModels ops src2DstSds sds2DstPhy clipExtents rest out1
    | .threw _ => .threw ()
    | .undefined => .undefined

/-- The method `Encoder::generate`, run by one thread. `conv3 src dst` is
the conversion of a 3D point by `vts::CsConvertor(src, dst)`, `none` when it
throws. The state of an outcome is the model cache. The final test
`atlas.empty()` reads the atlas filled by the loop, the object `patlas`
points to. -/
def Encoder.generate (ops : MeshOps) (fs : Files) (conv3 : Srs → Srs → Point3 → Option Point3)
    (enc : Encoder) (tileId : TileId) (nodeInfo : NodeInfo) : Outcome ModelCache TileResult :=
  if (enc.tileMap_.source tileId).isEmpty then .returned enc.modelCache_ .noDataYet else
  match getModels fs enc.modelCache_ (enc.tileMap_.source tileId) with
  | .undefined => .undefined
  | .threw c => .threw c
  | .returned c srcModels =>
    match addModels ops (conv3 enc.inputSrs_ nodeInfo.srs)
        (conv3 nodeInfo.srs enc.referenceFrame.physicalSrs) nodeInfo.extents srcModels
        ([], []) with
    | .undefined => .undefined
    | .threw _ => .threw c
    | .returned _ (mesh, atlas) =>
      if mesh.isEmpty then .returned c .noDataYet else
      .returned c (.tile (ops.mergeSubmeshes tileId mesh atlas enc.config_.textureQuality).1
        (if atlas.isEmpty then none
          else some (ops.mergeSubmeshes tileId mesh atlas enc.config_.textureQuality).2))

/-- What the loop of `generate` adds to the output mesh for one submesh: the
submesh converted to the SRS of the tile, clipped, and converted to the
physical SRS, when the clipped submesh is not empty. -/
def clipOne (ops : MeshOps) (src2DstSds sds2DstPhy : Point3 → Option Point3)
    (clipExtents : Extents2) (submesh : SubMesh) : Option SubMesh :=
  match warpInPlace src2DstSds submesh with
  | none => none
  | some copy =>
    if (ops.clip copy clipExtents).empty then none
    else warpInPlace sds2DstPhy (ops.clip copy clipExtents)

/-- The non-empty clipped submeshes of a list of models, in the order of the
models and of their submeshes. -/
def clippedSubmeshes (ops : MeshOps) (src2DstSds sds2DstPhy : Point3 → Option Point3)
    (clipExtents : Extents2) (models : List Model) : Mesh :=
  models.flatMap (fun m => m.mesh.filterMap (clipOne ops src2DstSds sds2DstPhy clipExtents))

/-- The model the loader produces for the input tile of an id: a new
`Model` loaded from the model path and origin of `input[id]`; `none` when the
id does not index the input list or `Model::load` throws. -/
def loadedModel (fs : Files) (input : List InputTile) (id : ℤ) : Option Model :=
  match inputAt input id with
  | none => none
  | some intile => (Model.create id).load fs intile.node.modelPath intile.node.origin

/-- Every model of the list `cache_` is the model the loader produces for its
id. -/
def ModelCache.loaded (fs : Files) (c : ModelCache) : Prop :=
  ∀ m ∈ c.cache_, loadedModel fs c.input_ m.id = some m

/-- The contributing models of a tile: the loaded models of the ids of
`source(tileId)`, in the order of the list. -/
def contributors (fs : Files) (enc : Encoder) (tileId : TileId) : List Model :=
  (enc.tileMap_.source tileId).filterMap (loadedModel fs enc.modelCache_.input_)

/-- The texture that goes with one submesh: the image paired with the
submesh, when the clipped submesh is not empty. -/
def textureOne (ops : MeshOps) (src2DstSds sds2DstPhy : Point3 → Option Point3)
    (clipExtents : Extents2) (p : SubMesh × Image) : Option Image :=
  match clipOne ops src2DstSds sds2DstPhy clipExtents p.1 with
  | none => none
  | some _ => some p.2

/-- The textures of the non-empty clipped submeshes of a list of models, each
submesh paired with the image at its index in the atlas of its model. -/
def clippedTextures (ops : MeshOps) (src2DstSds sds2DstPhy : Point3 → Option Point3)
    (clipExtents : Extents2) (models : List Model) : RawAtlas :=
  models.flatMap (fun m =>
    (m.mesh.zip m.atlas).filterMap (textureOne ops src2DstSds sds2DstPhy clipExtents))

/-- The constructor `InputTile(id, depth, node)`: the other members are
value-initialised. -/
def InputTile.create (id depth : ℤ) (node : LodTreeNode) : InputTile :=
  ⟨id, depth, 0, node, ⟨⟨0, 0⟩, ⟨0, 0⟩⟩, 0, 0, 0⟩

mutual
/-- Function `collectInputTiles`: the node is appended when its model path is
not empty, with the size of the list as id, then the children are collected
one level deeper. -/
def collectInputTiles : LodTreeNode → ℕ → List InputTile → List InputTile
  | .mk radius minRange origin modelPath children, depth, list =>
    collectChildren children (depth + 1)
      (if modelPath ≠ "" then
        list ++ [InputTile.create list.length depth
          (.mk radius minRange origin modelPath children)]
      else list)
/-- The loop of `collectInputTiles` over the children of a node. -/
def collectChildren : List LodTreeNode → ℕ → List InputTile → List InputTile
  | [], _, list => list
  | ch :: rest, depth, list => collectChildren rest depth (collectInputTiles ch depth list)
end

/-- The loop of `LodTree2Vts::run` that creates the list of input tiles from
the blocks. -/
def collectBlocks (blocks : List LodTreeNode) : List InputTile :=
  blocks.foldl (fun list block => collectInputTiles block 0 list) []

/-- The loop of `LodTree2Vts::run` that calls `calcModelExtents` on every
input tile; `extentsOf` gives the extents, the physical area and the texture
area it computes from the model file of the tile. -/
def measureTiles (extentsOf : InputTile → Extents2 × Double × Double)
    (inputTiles : List InputTile) : List InputTile :=
  inputTiles.map (fun tile =>
    { tile with extents := (extentsOf tile).1, physArea := (extentsOf tile).2.1
                texArea := (extentsOf tile).2.2 })

/-- The LOD assignment of `LodTree2Vts::run`, `tile.dstLod = firstLod +
tile.depth` with `firstLod = 15`. -/
def assignLod (inputTiles : List InputTile) : List InputTile :=
  inputTiles.map (fun tile => { tile with dstLod := 15 + tile.depth })

/-- The input tiles `LodTree2Vts::run` hands to the encoder. -/
def runInputTiles (extentsOf : InputTile → Extents2 × Double × Double)
    (blocks : List LodTreeNode) : List InputTile :=
  assignLod (measureTiles extentsOf (collectBlocks blocks))

/-- Conversion of an `int` to `size_t` (64 bits). -/
def sizeT (d : ℤ) : ℕ := (d % 2 ^ 64).toNat

/-- The loop of `LodTree2Vts::run` that accumulates the areas per depth: one
element is appended when `size_t(tile.depth) >= area.size()`, then
`area[tile.depth]` is updated; `none` is an access past the end of the
vector, which is undefined. -/
def accumulateArea : List InputTile → List (Double × Double) → Option (List (Double × Double))
  | [], area => some area
  | tile :: rest, area =>
    match (if sizeT tile.depth ≥ area.length then area ++ [(0, 0)] else area)[sizeT tile.depth]?
    with
    | none => none
    | some pair =>
      accumulateArea rest
        ((if sizeT tile.depth ≥ area.length then area ++ [(0, 0)] else area).set
          (sizeT tile.depth) (pair.1 + tile.physArea, pair.2 + tile.texArea))

mutual
/-- The nodes of a tree in depth-first pre-order, each with its distance from
the root plus the depth given for the root. -/
def preorder : LodTreeNode → ℕ → List (LodTreeNode × ℕ)
  | .mk radius minRange origin modelPath children, depth =>
    (.mk radius minRange origin modelPath children, depth) :: preorderList children (depth + 1)
/-- The nodes of a list of trees, tree after tree, each tree in depth-first
pre-order. -/
def preorderList : List LodTreeNode → ℕ → List (LodTreeNode × ℕ)
  | [], _ => []
  | ch :: rest, depth => preorder ch depth ++ preorderList rest depth
end

/-- The nodes of a forest of blocks that have a model path, in depth-first
pre-order, each with its distance from the root of its block. -/
def modelNodes (blocks : List LodTreeNode) : List (LodTreeNode × ℕ) :=
  (preorderList blocks 0).filter (fun p => decide (p.1.modelPath ≠ ""))

/-- Input tiles for a list of nodes with depths, numbered from `start`. -/
def mkTiles : ℕ → List (LodTreeNode × ℕ) → List InputTile
  | _, [] => []
  | start, p :: ps => InputTile.create start p.2 p.1 :: mkTiles (start + 1) ps

/-- The constructor of `Encoder`: the tile mapping is built with margin 1.0
and the model cache has capacity 64. -/
def Encoder.create (subtreeRoot : ReferenceFrame → TileId → NodeId)
    (csConvertor : Srs → Srs → Point2 → Option Point2) (referenceFrame : ReferenceFrame)
    (inputTiles : List InputTile) (inputSrs : Srs) (config : Config) : Encoder :=
  ⟨inputSrs, config, referenceFrame,
   TileMapping.build subtreeRoot csConvertor inputTiles inputSrs referenceFrame 1,
   ModelCache.create inputTiles 64⟩

/-! ## A concrete reference frame -/

/-- Modelled from the spec: the sub-tree lookup of `vts::NodeInfo`, which is
part of vts-libs and not of the sources; a tile belongs to the sub-tree of
the nearest division node among the tile itself and its ancestors. -/
def findSubtreeRoot (rf : ReferenceFrame) (t : TileId) : NodeId :=
  match (t :: ancestors t).find? (fun a => rf.nodes.any (fun n => decide (n.id = nodeId a))) with
  | some a => nodeId a
  | none => nodeId t

/-- Modelled from the spec: the extents of a tile of the sub-tree of a
division node, in the SRS of the node (`vts::NodeInfo::extents`, part of
vts-libs): the node extents are split into a grid of tiles of size
`tileSize`, columns counted from the left and rows from the top, and the
tile index inside the grid is the global index less the index of the first
tile of the node at that level. -/
def tileExtents (node : Node) (t : TileId) : Extents2 :=
  let l := t.lod - node.id.lod
  let ts := tileSize node.extents l
  let i : ℤ := t.x - node.id.x * 2 ^ l
  let j : ℤ := t.y - node.id.y * 2 ^ l
  let o := ul node.extents
  ⟨⟨o.x + i * ts.width, o.y - (j + 1) * ts.height⟩,
   ⟨o.x + (i + 1) * ts.width, o.y - j * ts.height⟩⟩

/-- The square extents from (0, 0) to (8, 8). -/
def demoExtents : Extents2 := ⟨⟨0, 0⟩, ⟨8, 8⟩⟩

/-- Root node of the demo frame: not valid, it only holds the two halves. -/
def demoRoot : Node := ⟨⟨0, 0, 0⟩, "none", demoExtents, false⟩

/-- Division node 1-0-0 of the demo frame. -/
def demoWest : Node := ⟨⟨1, 0, 0⟩, "west", demoExtents, true⟩

/-- Division node 1-1-0 of the demo frame. -/
def demoEast : Node := ⟨⟨1, 1, 0⟩, "east", demoExtents, true⟩

/-- A reference frame with an invalid root and two valid nodes at level 1. -/
def demoFrame : ReferenceFrame := ⟨[demoRoot, demoWest, demoEast], "phys"⟩

/-- A valid division node 0-0-0 with its own SRS. -/
def demoTop : Node := ⟨⟨0, 0, 0⟩, "top", demoExtents, true⟩

/-- A reference frame with a valid root and a valid node 1-0-0 below it. -/
def demoNested : ReferenceFrame := ⟨[demoTop, demoWest], "phys"⟩

/-- A conversion that is the identity into every SRS. -/
def demoConvAll : Srs → Srs → Point2 → Option Point2 := fun _ _ p => some p

/-- A conversion that is the identity into the SRS "east" and throws for
every other destination. -/
def demoConv : Srs → Srs → Point2 → Option Point2 :=
  fun _ dst p => if dst = "east" then some p else none

/-- A conversion that is the identity into the SRS "west" and throws for
every other destination. -/
def demoConvWest : Srs → Srs → Point2 → Option Point2 :=
  fun _ dst p => if dst = "west" then some p else none

/-- An input tile with id 0 at destination level 3 whose extents are the
square from (1, 1) to (3/2, 3/2). -/
def demoPiece : InputTile :=
  ⟨0, 0, 3, .mk 0 0 ⟨0, 0, 0⟩ "piece0.dae" [], ⟨⟨1, 1⟩, ⟨3 / 2, 3 / 2⟩⟩, 0, 0, 0⟩

/-- Three input tiles with ids 0, 1, 2 (the pieces A, B, C). -/
def demoInput : List InputTile :=
  [⟨0, 0, 3, .mk 0 0 ⟨0, 0, 0⟩ "a.dae" [], ⟨⟨1, 1⟩, ⟨3 / 2, 3 / 2⟩⟩, 0, 0, 0⟩,
   ⟨1, 0, 3, .mk 0 0 ⟨0, 0, 0⟩ "b.dae" [], ⟨⟨3, 3⟩, ⟨7 / 2, 7 / 2⟩⟩, 0, 0, 0⟩,
   ⟨2, 0, 3, .mk 0 0 ⟨0, 0, 0⟩ "c.dae" [], ⟨⟨5, 5⟩, ⟨11 / 2, 11 / 2⟩⟩, 0, 0, 0⟩]

/-- One triangle with a texture file. -/
def demoScene : List AiMesh :=
  [⟨[⟨1, 1, 0⟩, ⟨3 / 2, 1, 0⟩, ⟨1, 3 / 2, 0⟩], [⟨0, 0, 0⟩, ⟨1, 0, 0⟩, ⟨0, 1, 0⟩],
    [[0, 1, 2]], "tex.jpg"⟩]

/-- Files where every model and every texture can be read. -/
def demoFiles : Files := ⟨fun _ => some demoScene, fun _ => some [255, 216], fun _ f => f⟩

/-- Files where no model can be read. -/
def demoNoFiles : Files := ⟨fun _ => none, fun _ => none, fun _ f => f⟩

/-- Files where every texture can be read and every model but "b.dae". -/
def demoFilesNoB : Files :=
  ⟨fun p => if p = "b.dae" then none else some demoScene, fun _ => some [255, 216], fun _ f => f⟩

/-- A clip that keeps a submesh whose vertices are all inside the extents and
empties every other submesh, and a merge that keeps mesh and atlas. -/
def demoOps : MeshOps :=
  ⟨fun sm ext => if sm.vertices.all (fun v => inside ext ⟨v.x, v.y⟩) then sm else ⟨[], [], [], []⟩,
   fun _ mesh atlas _ => (mesh, atlas)⟩

/-- A conversion of 3D points that is the identity between any two SRSs. -/
def demoConv3 : Srs → Srs → Point3 → Option Point3 := fun _ _ p => some p

/-- An encoder on the demo input: margin 1, conversion into "west" only, an
empty cache of capacity 64. -/
def demoEncoder : Encoder :=
  ⟨"src", ⟨"demo", 85⟩, demoFrame,
   TileMapping.build findSubtreeRoot demoConvWest demoInput "src" demoFrame 1,
   ModelCache.create demoInput 64⟩

/-- The demo encoder with a tile mapping built without the input tile of
id 1. -/
def demoEncoderWithoutB : Encoder :=
  { demoEncoder with
    tileMap_ := TileMapping.build findSubtreeRoot demoConvWest
      (demoInput.filter (fun t => decide (t.id ≠ 1))) "src" demoFrame 1 }

/-- The node info of tile 3-0-3 of the demo frame. -/
def demoNodeInfo : NodeInfo := ⟨⟨3, 0, 3⟩, demoWest.id, "west", tileExtents demoWest ⟨3, 0, 3⟩⟩

/-- The node info of tile 3-1-3 of the demo frame, the right-hand neighbour
of tile 3-0-3. -/
def demoNodeInfoNext : NodeInfo :=
  ⟨⟨3, 1, 3⟩, demoWest.id, "west", tileExtents demoWest ⟨3, 1, 3⟩⟩

/-- Files where every model can be read and no texture. -/
def demoFilesNoTex : Files := ⟨fun _ => some demoScene, fun _ => none, fun _ f => f⟩

/-- Two triangles, each with a texture file of its own. -/
def demoScene2 : List AiMesh :=
  [⟨[⟨1, 1, 0⟩, ⟨3 / 2, 1, 0⟩, ⟨1, 3 / 2, 0⟩], [⟨0, 0, 0⟩, ⟨1, 0, 0⟩, ⟨0, 1, 0⟩],
    [[0, 1, 2]], "t0.jpg"⟩,
   ⟨[⟨1, 1, 1⟩, ⟨3 / 2, 1, 1⟩, ⟨1, 3 / 2, 1⟩], [⟨0, 0, 0⟩, ⟨1, 0, 0⟩, ⟨0, 1, 0⟩],
    [[0, 1, 2]], "t1.jpg"⟩]

/-- Files where every model is the scene of two triangles, the texture
"t0.jpg" cannot be read and every other texture holds the byte 1. -/
def demoFilesNoT0 : Files :=
  ⟨fun _ => some demoScene2, fun p => if p = "t0.jpg" then none else some [1], fun _ f => f⟩

/-- The submesh of the demo scene, as loaded with origin (0, 0, 0). -/
def demoSubMesh : SubMesh :=
  ⟨[⟨1, 1, 0⟩, ⟨3 / 2, 1, 0⟩, ⟨1, 3 / 2, 0⟩], [⟨0, 0⟩, ⟨1, 0⟩, ⟨0, 1⟩], [(0, 1, 2)], [(0, 1, 2)]⟩

/-- A block whose root has no model and whose only child has one. -/
def demoBlock : LodTreeNode := .mk 0 0 ⟨0, 0, 0⟩ "" [.mk 0 0 ⟨0, 0, 0⟩ "m.dae" []]

/-- A block whose root and two children have models; the first child has a
child with a model. -/
def demoTree : LodTreeNode :=
  .mk 0 0 ⟨0, 0, 0⟩ "r.dae"
    [.mk 0 0 ⟨0, 0, 0⟩ "a.dae" [.mk 0 0 ⟨0, 0, 0⟩ "aa.dae" []], .mk 0 0 ⟨0, 0, 0⟩ "b.dae" []]

/-- The result of `calcModelExtents` for models that are the single point
(1, 1). -/
def demoExtentsOf : InputTile → Extents2 × Double × Double := fun _ => (⟨⟨1, 1⟩, ⟨1, 1⟩⟩, 0, 0)

/-! ## Theorems -/

section MappingFacts

variable (subtreeRoot : ReferenceFrame → TileId → NodeId)

variable (csConvertor : Srs → Srs → Point2 → Option Point2)

theorem foldl_flatMap_eq {α β σ : Type} (f : α → List β) (g : σ → β → σ) (l : List α) (s : σ) :
    (l.flatMap f).foldl g s = l.foldl (fun s a => (f a).foldl g s) s := by
  induction l generalizing s with
  | nil => rfl
  | cons a l ih => simp [List.flatMap_cons, List.foldl_append, ih]

theorem foldl_filter_eq {β σ : Type} (p : β → Bool) (g : σ → β → σ) (l : List β) (s : σ) :
    (l.filter p).foldl g s = l.foldl (fun s b => if p b then g s b else s) s := by
  induction l generalizing s with
  | nil => rfl
  | cons a l ih =>
    by_cases h : p a <;> simp [List.filter_cons, h, ih]

theorem tileId_nodeId (t : TileId) : tileId (nodeId t) = t := rfl

theorem forEachTile_eq {σ : Type} (rf : ReferenceFrame) (lod : Lod) (tr : Option TileRange)
    (op : NodeId × NodeId → σ → σ) (s : σ) :
    forEachTile subtreeRoot rf lod tr op s
      = (cells lod tr).foldl (fun s t => op (nodeInfoOf subtreeRoot rf t) s) s := by
  cases tr with
  | none => rfl
  | some r =>
    simp only [forEachTile, cells, foldl_flatMap_eq, List.foldl_map]

theorem rasterizeTiles_eq {σ : Type} (rf : ReferenceFrame) (root : Node) (lod : Lod)
    (tr : Option TileRange) (op : TileId → σ → σ) (s : σ) :
    rasterizeTiles subtreeRoot rf root lod tr op s
      = ((cells lod tr).filter (fun t => decide (subtreeRoot rf t = root.id))).foldl
          (fun s t => op t s) s := by
  rw [rasterizeTiles, forEachTile_eq, foldl_filter_eq]
  simp [nodeInfoOf, tileId_nodeId]

theorem mapNode_eq (inputSRS : Srs) (dstRf : ReferenceFrame) (margin : Double)
    (tile : InputTile) (m : TileMapping) (node : Node) :
    TileMapping.mapNode subtreeRoot csConvertor inputSRS dstRf margin tile m node
      = (nodeTiles subtreeRoot csConvertor inputSRS dstRf margin tile node).foldl
          (fun m id => TileMapping.add tile id m) m := by
  unfold TileMapping.mapNode nodeTiles
  by_cases hv : node.valid = true
  · by_cases he : (projectCorners node (csConvertor inputSRS node.srs)
        (srcCornersOf tile)).isEmpty = true
    · simp [hv, he]
    · simp only [hv, he, rasterizeTiles_eq]
      simp
  · simp [hv]

theorem mapTile_eq (inputSRS : Srs) (dstRf : ReferenceFrame) (margin : Double)
    (m : TileMapping) (tile : InputTile) :
    TileMapping.mapTile subtreeRoot csConvertor inputSRS dstRf margin m tile
      = (tileTiles subtreeRoot csConvertor inputSRS dstRf margin tile).foldl
          (fun m id => TileMapping.add tile id m) m := by
  unfold TileMapping.mapTile tileTiles
  rw [foldl_flatMap_eq]
  congr 1
  funext m node
  exact mapNode_eq subtreeRoot csConvertor inputSRS dstRf margin tile m node

theorem source_pushBack (si : List (TileId × List ℤ)) (k : TileId) (v : ℤ) (t : TileId)
    (dt vt : TileIndex) :
    TileMapping.source ⟨pushBack si k v, dt, vt⟩ t
      = TileMapping.source ⟨si, dt, vt⟩ t ++ (if k = t then [v] else []) := by
  induction si with
  | nil =>
    by_cases h : k = t <;> simp [TileMapping.source, pushBack, find, h]
  | cons e rest ih =>
    obtain ⟨k', vs⟩ := e
    simp only [TileMapping.source] at ih ⊢
    by_cases h1 : k' = k
    · subst h1
      by_cases h2 : k' = t <;> simp [pushBack, find, h2]
    · by_cases h2 : k' = t
      · subst h2
        have h3 : ¬ k = k' := fun h => h1 h.symm
        simp [pushBack, find, h1, h3]
      · simp only [pushBack, find, h1, h2, if_false]
        exact ih

theorem source_add (tile : InputTile) (id : TileId) (m : TileMapping) (t : TileId) :
    (TileMapping.add tile id m).source t
      = m.source t ++ (if id = t then [tile.id] else []) := by
  obtain ⟨si, dt, vt⟩ := m
  exact source_pushBack si id tile.id t _ _

theorem source_foldl_add (tile : InputTile) (ids : List TileId) (m : TileMapping) (t : TileId) :
    (ids.foldl (fun m id => TileMapping.add tile id m) m).source t
      = m.source t ++ (ids.filter (fun id => decide (id = t))).map (fun _ => tile.id) := by
  induction ids generalizing m with
  | nil => simp
  | cons id ids ih =>
    rw [List.foldl_cons, ih, source_add]
    by_cases h : id = t <;> simp [List.filter_cons, h]

/-- The contributor list of a tile after the constructor has run: one entry
per append, in the order of the input tiles. -/
theorem source_build (inputTiles : List InputTile) (inputSRS : Srs) (dstRf : ReferenceFrame)
    (margin : Double) (t : TileId) :
    (TileMapping.build subtreeRoot csConvertor inputTiles inputSRS dstRf margin).source t
      = inputTiles.flatMap (fun tile =>
          ((tileTiles subtreeRoot csConvertor inputSRS dstRf margin tile).filter
            (fun id => decide (id = t))).map (fun _ => tile.id)) := by
  have key : ∀ (l : List InputTile) (m : TileMapping),
      (l.foldl (TileMapping.mapTile subtreeRoot csConvertor inputSRS dstRf margin) m).source t
        = m.source t ++ l.flatMap (fun tile =>
          ((tileTiles subtreeRoot csConvertor inputSRS dstRf margin tile).filter
            (fun id => decide (id = t))).map (fun _ => tile.id)) := by
    intro l
    induction l with
    | nil => intro m; simp
    | cons tile l ih =>
      intro m
      rw [List.foldl_cons, ih, mapTile_eq, source_foldl_add, List.flatMap_cons,
        List.append_assoc]
  have h := key inputTiles ⟨[], ⟨[]⟩, ⟨[]⟩⟩
  simp only [TileMapping.source, find, List.nil_append] at h
  simpa only [TileMapping.build, TileMapping.source] using h

theorem mem_source_build (inputTiles : List InputTile) (inputSRS : Srs) (dstRf : ReferenceFrame)
    (margin : Double) (t : TileId) (v : ℤ) :
    v ∈ (TileMapping.build subtreeRoot csConvertor inputTiles inputSRS dstRf margin).source t
      ↔ ∃ tile ∈ inputTiles, tile.id = v ∧ ∃ node ∈ dstRf.nodes,
          t ∈ nodeTiles subtreeRoot csConvertor inputSRS dstRf margin tile node := by
  rw [source_build]
  simp only [List.mem_flatMap, List.mem_map, List.mem_filter, decide_eq_true_eq, tileTiles]
  constructor
  · rintro ⟨tile, htile, id, ⟨⟨node, hnode, hid⟩, rfl⟩, rfl⟩
    exact ⟨tile, htile, rfl, node, hnode, hid⟩
  · rintro ⟨tile, htile, rfl, node, hnode, hid⟩
    exact ⟨tile, htile, t, ⟨⟨node, hnode, hid⟩, rfl⟩, rfl⟩

theorem projectCornersLoop_rejected (node : Node) (conv : Point2 → Option Point2)
    (src dst : List Point2)
    (h : ∃ c ∈ src, conv c = none ∨ ∃ d, conv c = some d ∧ inside node.extents d = false) :
    projectCornersLoop node conv src dst = [] := by
  induction src generalizing dst with
  | nil => simp at h
  | cons c cs ih =>
    unfold projectCornersLoop
    cases hc : conv c with
    | none => rfl
    | some d =>
      by_cases hin : inside node.extents d = true
      · simp only [hin, Bool.not_true, Bool.false_eq_true, if_false]
        apply ih
        obtain ⟨c', hc', hbad⟩ := h
        rcases List.mem_cons.1 hc' with rfl | hmem
        · rcases hbad with hnone | ⟨d', hd', hout⟩
          · rw [hc] at hnone; cases hnone
          · rw [hc] at hd'
            cases hd'
            rw [hin] at hout; cases hout
        · exact ⟨c', hmem, hbad⟩
      · simp [hin]

theorem mem_nodeTiles (inputSRS : Srs) (dstRf : ReferenceFrame) (margin : Double)
    (tile : InputTile) (node : Node) (t : TileId) :
    t ∈ nodeTiles subtreeRoot csConvertor inputSRS dstRf margin tile node ↔
    node.valid = true
      ∧ projectCorners node (csConvertor inputSRS node.srs) (srcCornersOf tile) ≠ []
      ∧ subtreeRoot dstRf t = node.id
      ∧ t ∈ cells (toLod tile.dstLod) (tileRange node (toLod (tile.dstLod - node.id.lod))
          (projectCorners node (csConvertor inputSRS node.srs) (srcCornersOf tile)) margin) := by
  unfold nodeTiles
  by_cases hv : node.valid = true
  · by_cases he : (projectCorners node (csConvertor inputSRS node.srs)
        (srcCornersOf tile)).isEmpty = true
    · have hnil := List.isEmpty_iff.1 he
      simp [hv, hnil]
    · have hne : projectCorners node (csConvertor inputSRS node.srs) (srcCornersOf tile) ≠ [] :=
        fun hnil => he (List.isEmpty_iff.2 hnil)
      simp only [hv, he, Bool.not_true, Bool.false_eq_true, if_false, List.mem_filter,
        decide_eq_true_eq, true_and, ne_eq, hne, not_false_eq_true]
      tauto
  · simp [hv]

/-- C1. A piece P one of whose four corners fails to convert into the SRS of
division node N, or converts to a point outside the extents of N, is in the
contributor list of no tile whose sub-tree root is N, whatever the margin and
whatever the other nodes do with P (P being the only piece with its id and N
the only node with its id). -/
theorem rejected_piece_absent_under_node (inputTiles : List InputTile) (inputSRS : Srs)
    (dstRf : ReferenceFrame) (margin : Double) (P : InputTile) (N : Node)
    (hP : ∀ Q ∈ inputTiles, Q.id = P.id → Q = P)
    (hN : ∀ M ∈ dstRf.nodes, M.id = N.id → M = N)
    (hrej : ∃ c ∈ srcCornersOf P, csConvertor inputSRS N.srs c = none
      ∨ ∃ d, csConvertor inputSRS N.srs c = some d ∧ inside N.extents d = false)
    (t : TileId) (ht : subtreeRoot dstRf t = N.id) :
    P.id ∉ (TileMapping.build subtreeRoot csConvertor inputTiles inputSRS dstRf margin).source
      t := by
  intro hmem
  obtain ⟨tile, htile, hid, node, hnode, hin⟩ :=
    (mem_source_build subtreeRoot csConvertor inputTiles inputSRS dstRf margin t P.id).1 hmem
  obtain ⟨_, hne, hroot, _⟩ :=
    (mem_nodeTiles subtreeRoot csConvertor inputSRS dstRf margin tile node t).1 hin
  have hnodeN : node = N := hN node hnode (hroot.symm.trans ht)
  have htileP : tile = P := hP tile htile hid
  subst hnodeN
  subst htileP
  exact hne (projectCornersLoop_rejected _ _ _ [] hrej)

/-- C1, witness: in the nested demo frame the conversion of the demo piece
into the SRS of node 0-0-0 throws and the conversion into the SRS of node
1-0-0 succeeds. The piece is listed by tile 3-0-3 of the sub-tree of 1-0-0 and
is absent from tile 3-0-5, which belongs to the sub-tree of 0-0-0 and would
list the piece if every conversion succeeded. -/
theorem rejected_piece_absent_under_node_witness :
    findSubtreeRoot demoNested ⟨3, 0, 5⟩ = demoTop.id
    ∧ demoPiece.id ∈ (TileMapping.build findSubtreeRoot demoConvAll [demoPiece] "src" demoNested
        1).source ⟨3, 0, 5⟩
    ∧ demoPiece.id ∈ (TileMapping.build findSubtreeRoot demoConvWest [demoPiece] "src" demoNested
        1).source ⟨3, 0, 3⟩
    ∧ demoPiece.id ∉ (TileMapping.build findSubtreeRoot demoConvWest [demoPiece] "src" demoNested
        1).source ⟨3, 0, 5⟩ :=
  ⟨by decide, by decide!, by decide!,
    rejected_piece_absent_under_node findSubtreeRoot demoConvWest [demoPiece] "src" demoNested 1
      demoPiece demoTop
      (by intro Q hQ _; simpa using hQ)
      (by decide!)
      ⟨ul demoPiece.extents, by simp [srcCornersOf], Or.inl (by decide)⟩
      ⟨3, 0, 5⟩ (by decide)⟩

theorem mem_indexRange (lo hi i : ℤ) : i ∈ indexRange lo hi ↔ lo ≤ i ∧ i ≤ hi := by
  unfold indexRange
  simp only [List.mem_map, List.mem_range]
  constructor
  · rintro ⟨k, hk, rfl⟩
    omega
  · intro h
    exact ⟨(i - lo).toNat, by omega, by omega⟩

theorem mem_cells (lod : Lod) (r : Option TileRange) (t : TileId) :
    t ∈ cells lod r ↔ t.lod = lod ∧ inRange r t.x t.y := by
  cases r with
  | none => simp [cells, inRange]
  | some r =>
    obtain ⟨l, x, y⟩ := t
    simp only [cells, inRange, List.mem_flatMap, List.mem_map, mem_indexRange, TileId.mk.injEq]
    constructor
    · rintro ⟨j, hj, i, hi, rfl, rfl, rfl⟩
      exact ⟨rfl, hi.1, hi.2, hj.1, hj.2⟩
    · rintro ⟨rfl, h1, h2, h3, h4⟩
      exact ⟨y, ⟨h3, h4⟩, x, ⟨h1, h2⟩, rfl, rfl, rfl⟩

/-- Where a conversion is not defined the containment of C2 can fail in the
embedding. With margin 3 the left inflation of the demo piece in node 1-0-0
at local level 2 has the quotient -5/2, which truncates to -2 and is no tile
index; taken modulo 2^32 it puts the columns of the range at 3 .. 2^32 - 2,
and column 0, row 3 of the range for margin 1 is not in the range for
margin 3. -/
theorem tileRange_undefined_conversion :
    ¬ tileRangeDefined demoWest 2 (srcCornersOf demoPiece) 3
    ∧ tileRange demoWest 2 (srcCornersOf demoPiece) 1 = some ⟨⟨0, 2⟩, ⟨1, 4⟩⟩
    ∧ tileRange demoWest 2 (srcCornersOf demoPiece) 3 = some ⟨⟨3, 0⟩, ⟨4294967294, 6⟩⟩
    ∧ inRange (tileRange demoWest 2 (srcCornersOf demoPiece) 1) 0 3
    ∧ ¬ inRange (tileRange demoWest 2 (srcCornersOf demoPiece) 3) 0 3 := by
  decide!

/-- C3, the code at a failing input. In the demo frame all four corners of
the demo piece (level 3) convert into the SRS of node 1-1-0 and land inside
its extents; tile 3-4-3 is the tile of the sub-tree of 1-1-0 at level 3 whose
extents hold all four converted corners. Whatever the sub-tree lookup, the
mapping built with margin 1 lists no contributor for tile 3-4-3: the tile
range is in the grid of the node (columns 0..1, rows 2..4) and is used as
global tile indices. -/
theorem coverage_fails_off_origin_node :
    (∀ c ∈ srcCornersOf demoPiece, ∃ d, demoConv "src" demoEast.srs c = some d
      ∧ inside demoEast.extents d = true
      ∧ inside (tileExtents demoEast ⟨3, 4, 3⟩) d = true)
    ∧ findSubtreeRoot demoFrame ⟨3, 4, 3⟩ = demoEast.id
    ∧ demoPiece.dstLod = 3
    ∧ (∀ sr : ReferenceFrame → TileId → NodeId,
        (TileMapping.build sr demoConv [demoPiece] "src" demoFrame 1).source ⟨3, 4, 3⟩ = [])
    ∧ (TileMapping.build findSubtreeRoot demoConv [demoPiece] "src" demoFrame 1).size = 0 := by
  refine ⟨by decide!, by decide, rfl, ?_, by decide!⟩
  intro sr
  apply List.eq_nil_iff_forall_not_mem.2
  intro v hv
  rw [mem_source_build] at hv
  obtain ⟨tile, htile, -, node, hnode, hin⟩ := hv
  rw [mem_nodeTiles, mem_cells] at hin
  obtain ⟨hvalid, hne, -, -, hrange⟩ := hin
  have htile' : tile = demoPiece := by simpa using htile
  subst htile'
  simp only [demoFrame, List.mem_cons, List.mem_singleton, List.not_mem_nil, or_false] at hnode
  rcases hnode with rfl | rfl | rfl
  · exact absurd hvalid (by decide)
  · exact hne (by decide)
  · revert hrange
    decide!

theorem le_foldl_max (l : List ℕ) (a : ℕ) :
    a ≤ l.foldl max a ∧ ∀ x ∈ l, x ≤ l.foldl max a := by
  induction l generalizing a with
  | nil => simp
  | cons b l ih =>
    obtain ⟨h1, h2⟩ := ih (max a b)
    refine ⟨le_trans (le_max_left a b) h1, ?_⟩
    intro x hx
    rcases List.mem_cons.1 hx with rfl | hx
    · exact le_trans (le_max_right a x) h1
    · exact h2 x hx

theorem lod_le_maxLod (ti : TileIndex) (t : TileId) (h : t ∈ ti.tiles) : t.lod ≤ ti.maxLod :=
  (le_foldl_max _ 0).2 t.lod (List.mem_map.2 ⟨t, h, rfl⟩)

theorem mem_complete_ofRange (ti : TileIndex) (t : TileId) (h : t ∈ ti.tiles) :
    t ∈ ((TileIndex.ofRange 0 ti.maxLod ti).complete).tiles := by
  simp only [TileIndex.complete, TileIndex.ofRange, List.mem_append, List.mem_filter]
  left
  exact ⟨h, by simp [lod_le_maxLod ti t h]⟩

theorem ancestorsFrom_trans (l : Lod) (x y : Index) (t a : TileId)
    (ht : t ∈ ancestorsFrom l x y) (ha : a ∈ ancestors t) : a ∈ ancestorsFrom l x y := by
  induction l generalizing x y with
  | zero => simp [ancestorsFrom] at ht
  | succ l ih =>
    simp only [ancestorsFrom, List.mem_cons] at ht ⊢
    rcases ht with rfl | ht
    · right
      exact ha
    · right
      exact ih (x / 2) (y / 2) ht

theorem ancestors_eq_parent (t : TileId) (h : 0 < t.lod) :
    ancestors t = parent t :: ancestors (parent t) := by
  obtain ⟨l, x, y⟩ := t
  cases l with
  | zero => simp at h
  | succ l => simp [ancestors, ancestorsFrom, parent]

theorem complete_closed (ti : TileIndex) (t a : TileId) (ht : t ∈ ti.complete.tiles)
    (ha : a ∈ ancestors t) : a ∈ ti.complete.tiles := by
  simp only [TileIndex.complete, List.mem_append, List.mem_flatMap] at ht ⊢
  right
  rcases ht with ht | ⟨s, hs, hts⟩
  · exact ⟨t, ht, ha⟩
  · exact ⟨s, hs, ancestorsFrom_trans _ _ _ t a hts ha⟩

theorem find_pushBack_ne_none (si : List (TileId × List ℤ)) (k : TileId) (v : ℤ) (t : TileId)
    (h : find (pushBack si k v) t ≠ none) : t = k ∨ find si t ≠ none := by
  induction si with
  | nil =>
    by_cases hk : k = t
    · exact Or.inl hk.symm
    · simp [pushBack, find, hk] at h
  | cons e rest ih =>
    obtain ⟨k', vs⟩ := e
    by_cases h1 : k' = k
    · subst h1
      by_cases h2 : k' = t
      · exact Or.inl h2.symm
      · right
        simpa [pushBack, find, h2] using h
    · by_cases h2 : k' = t
      · right
        simp [find, h2]
      · simp only [pushBack, find, h1, h2, if_false] at h ⊢
        exact ih h

theorem mem_set (ti : TileIndex) (id t : TileId) (h : t = id ∨ t ∈ ti.tiles) :
    t ∈ (ti.set id).tiles := by
  unfold TileIndex.set
  by_cases hid : id ∈ ti.tiles
  · rw [if_pos hid]
    rcases h with rfl | h
    · exact hid
    · exact h
  · rw [if_neg hid]
    simp only [List.mem_append, List.mem_singleton]
    tauto

theorem keysMarked_add (tile : InputTile) (id : TileId) (m : TileMapping) (h : keysMarked m) :
    keysMarked (TileMapping.add tile id m) := by
  intro t ht
  simp only [TileMapping.add] at ht ⊢
  apply mem_set
  rcases find_pushBack_ne_none _ _ _ _ ht with rfl | h'
  · exact Or.inl rfl
  · exact Or.inr (h t h')

theorem keysMarked_foldl_add (tile : InputTile) (ids : List TileId) (m : TileMapping)
    (h : keysMarked m) : keysMarked (ids.foldl (fun m id => TileMapping.add tile id m) m) := by
  induction ids generalizing m with
  | nil => exact h
  | cons id ids ih => exact ih _ (keysMarked_add tile id m h)

theorem keysMarked_foldl_mapTile (inputSRS : Srs) (dstRf : ReferenceFrame) (margin : Double)
    (l : List InputTile) (m : TileMapping) (h : keysMarked m) :
    keysMarked (l.foldl (TileMapping.mapTile subtreeRoot csConvertor inputSRS dstRf margin) m) := by
  induction l generalizing m with
  | nil => exact h
  | cons tile l ih =>
    apply ih
    rw [mapTile_eq]
    exact keysMarked_foldl_add tile _ m h

/-- C4. After the constructor of `TileMapping` has run, every ancestor, down
to level 0, of a tile of the valid tree is in the valid tree, and every tile
id that is a key of `sourceInfo_` is in the valid tree. -/
theorem validTree_ancestor_closed (inputTiles : List InputTile) (inputSRS : Srs)
    (dstRf : ReferenceFrame) (margin : Double) :
    (∀ t ∈ (TileMapping.build subtreeRoot csConvertor inputTiles inputSRS dstRf
          margin).validTree.tiles,
      ∀ a ∈ ancestors t,
        a ∈ (TileMapping.build subtreeRoot csConvertor inputTiles inputSRS dstRf
          margin).validTree.tiles)
    ∧ (∀ t, find (TileMapping.build subtreeRoot csConvertor inputTiles inputSRS dstRf
          margin).sourceInfo_ t ≠ none →
        t ∈ (TileMapping.build subtreeRoot csConvertor inputTiles inputSRS dstRf
          margin).validTree.tiles) := by
  constructor
  · intro t ht a ha
    exact complete_closed _ t a ht ha
  · intro t ht
    have hk := keysMarked_foldl_mapTile subtreeRoot csConvertor inputSRS dstRf margin inputTiles
      ⟨[], ⟨[]⟩, ⟨[]⟩⟩ (by intro t ht; simp [find] at ht)
    exact mem_complete_ofRange _ t (hk t ht)

/-- C4, witness: in the mapping of the demo piece built in the demo frame
with margin 1, tile 3-0-3 is a key of `sourceInfo_`, so it is in the valid
tree, and so is its ancestor 0-0-0. -/
theorem validTree_ancestor_closed_witness :
    (⟨3, 0, 3⟩ : TileId) ∈ (TileMapping.build findSubtreeRoot demoConvWest [demoPiece] "src"
        demoFrame 1).validTree.tiles
    ∧ (⟨0, 0, 0⟩ : TileId) ∈ (TileMapping.build findSubtreeRoot demoConvWest [demoPiece] "src"
        demoFrame 1).validTree.tiles :=
  have h := validTree_ancestor_closed findSubtreeRoot demoConvWest [demoPiece] "src" demoFrame 1
  have hk := h.2 ⟨3, 0, 3⟩ (by decide!)
  ⟨hk, h.1 ⟨3, 0, 3⟩ hk ⟨0, 0, 0⟩ (by decide)⟩

end MappingFacts

section CacheFacts

theorem releaseLoop_length (cacheLimit fuel : ℕ) (cache kept : List Model)
    (h : releaseLoop cacheLimit fuel cache = some kept) : kept.length < cacheLimit := by
  induction fuel generalizing cache with
  | zero => simp [releaseLoop] at h
  | succ fuel ih =>
    unfold releaseLoop at h
    by_cases hge : cache.length ≥ cacheLimit
    · rw [if_pos hge] at h
      by_cases he : cache.isEmpty = true
      · rw [if_pos he] at h; cases h
      · rw [if_neg he] at h
        exact ih _ h
    · rw [if_neg hge] at h
      cases h
      omega

theorem releaseLoop_eq_take (cacheLimit : ℕ) (hlimit : 1 ≤ cacheLimit) (fuel : ℕ)
    (cache : List Model) (hfuel : cache.length < fuel) :
    releaseLoop cacheLimit fuel cache = some (cache.take (cacheLimit - 1)) := by
  induction fuel generalizing cache with
  | zero => omega
  | succ fuel ih =>
    unfold releaseLoop
    by_cases hge : cache.length ≥ cacheLimit
    · rw [if_pos hge]
      have hne : cache ≠ [] := by
        intro h
        rw [h] at hge
        simp at hge
        omega
      have he : ¬ cache.isEmpty = true := fun h => hne (List.isEmpty_iff.1 h)
      rw [if_neg he, ih cache.dropLast (by rw [List.length_dropLast]; omega),
        List.dropLast_eq_take, List.take_take]
      congr 2
      omega
    · rw [if_neg hge, List.take_of_length_le (by omega)]

theorem get_state_length (fs : Files) (c c1 : ModelCache) (id : ℤ)
    (hc : c.cache_.length ≤ c.cacheLimit_) (h : (c.get fs id).state? = some c1) :
    c1.cache_.length ≤ c1.cacheLimit_ ∧ c1.cacheLimit_ = c.cacheLimit_ := by
  unfold ModelCache.get at h
  split at h
  · next ptr hfind =>
    simp only [Outcome.state?, Option.some.injEq] at h
    subst h
    have hmem := List.mem_of_find?_eq_some hfind
    have hp := List.find?_some hfind
    have hlen := List.length_eraseP_of_mem (p := fun p => decide (p.id = id)) hmem hp
    simp only [List.length_cons, hlen, and_true]
    have : 0 < c.cache_.length := List.length_pos_of_mem hmem
    omega
  · split at h
    · simp [Outcome.state?] at h
    · next kept hkept =>
      have hlen := releaseLoop_length _ _ _ _ hkept
      split at h
      · simp [Outcome.state?] at h
      · split at h <;>
          (simp only [Outcome.state?, Option.some.injEq] at h
           subst h
           simp only [List.length_cons, and_true]
           omega)

theorem gets_length (fs : Files) (ids : List ℤ) (c c1 : ModelCache)
    (hc : c.cache_.length ≤ c.cacheLimit_) (h : c.gets fs ids = some c1) :
    c1.cache_.length ≤ c1.cacheLimit_ ∧ c1.cacheLimit_ = c.cacheLimit_ := by
  induction ids generalizing c with
  | nil =>
    simp only [ModelCache.gets, Option.some.injEq] at h
    subst h
    exact ⟨hc, rfl⟩
  | cons id ids ih =>
    unfold ModelCache.gets at h
    split at h
    · next c2 hc2 =>
      obtain ⟨h1, h2⟩ := get_state_length fs c c2 id hc hc2
      obtain ⟨h3, h4⟩ := ih c2 h1 h
      exact ⟨h3, h4.trans h2⟩
    · cases h

theorem inputAt_isSome (input : List InputTile) (id : ℤ) (h : 0 ≤ id ∧ id < input.length) :
    ∃ t, inputAt input id = some t := by
  unfold inputAt
  rw [if_pos h.1]
  have hlt : id.toNat < input.length := by omega
  exact ⟨input[id.toNat], List.getElem?_eq_getElem hlt⟩

theorem get_defined (fs : Files) (c : ModelCache) (id : ℤ) (hlimit : 1 ≤ c.cacheLimit_)
    (hid : 0 ≤ id ∧ id < c.input_.length) :
    ∃ c1, (c.get fs id).state? = some c1 ∧ c1.input_.length = c.input_.length
      ∧ c1.cacheLimit_ = c.cacheLimit_ := by
  obtain ⟨t, ht⟩ := inputAt_isSome c.input_ id hid
  unfold ModelCache.get
  cases hfind : c.cache_.find? (fun ptr => decide (ptr.id = id)) with
  | some ptr => exact ⟨_, rfl, rfl, rfl⟩
  | none =>
    simp only [releaseLoop_eq_take c.cacheLimit_ hlimit (c.cache_.length + 1) c.cache_
      (Nat.lt_succ_self _), ht]
    cases (Model.create id).load fs t.node.modelPath t.node.origin with
    | none => exact ⟨_, rfl, rfl, rfl⟩
    | some loaded => exact ⟨_, rfl, by simp [bumpLoadCnt], rfl⟩

theorem gets_defined (fs : Files) (ids : List ℤ) (c : ModelCache) (hlimit : 1 ≤ c.cacheLimit_)
    (hids : ∀ id ∈ ids, 0 ≤ id ∧ id < c.input_.length) : ∃ c1, c.gets fs ids = some c1 := by
  induction ids generalizing c with
  | nil => exact ⟨c, rfl⟩
  | cons id ids ih =>
    obtain ⟨c1, h1, hlen, hlim⟩ := get_defined fs c id hlimit (hids id (List.mem_cons_self _ _))
    unfold ModelCache.gets
    rw [h1]
    apply ih c1 (by rw [hlim]; exact hlimit)
    intro id' hid'
    rw [hlen]
    exact hids id' (List.mem_cons_of_mem _ hid')

/-- C5. Starting from an empty cache of any capacity, after any sequence of
`get` calls by one caller the list `cache_` holds at most `cacheLimit_`
models; and with a capacity of at least 1 and ids that index the input list
every call of the sequence ends (by returning, or by throwing when the load
fails), none has undefined behaviour. -/
theorem cache_size_bounded (fs : Files) (input : List InputTile) (cacheLimit : ℕ)
    (ids : List ℤ) :
    (∀ c, (ModelCache.create input cacheLimit).gets fs ids = some c →
      c.cache_.length ≤ cacheLimit)
    ∧ (1 ≤ cacheLimit → (∀ id ∈ ids, 0 ≤ id ∧ id < input.length) →
      ∃ c, (ModelCache.create input cacheLimit).gets fs ids = some c) := by
  constructor
  · intro c hc
    have h := gets_length fs ids (ModelCache.create input cacheLimit) c
      (by simp [ModelCache.create]) hc
    rw [h.2] at h
    exact h.1
  · intro hlimit hids
    exact gets_defined fs ids (ModelCache.create input cacheLimit) hlimit hids

/-- C5, witness: capacity 2 and the requests 0, 1, 2, 0 on the demo input;
all four calls end and the cache holds at most 2 models. -/
theorem cache_size_bounded_witness :
    ∃ c, (ModelCache.create demoInput 2).gets demoFiles [0, 1, 2, 0] = some c
      ∧ c.cache_.length ≤ 2 :=
  have h := cache_size_bounded demoFiles demoInput 2 [0, 1, 2, 0]
  (h.2 (by decide) (by decide)).elim fun c hc => ⟨c, hc, h.1 c hc⟩

theorem map_id_eraseP (l : List Model) (id : ℤ) :
    (l.eraseP (fun p => decide (p.id = id))).map (fun m => m.id)
      = (l.map (fun m => m.id)).erase id := by
  induction l with
  | nil => rfl
  | cons a l ih =>
    by_cases h : a.id = id
    · simp [List.eraseP_cons, h]
    · have h' : ¬ (a.id == id) = true := by simpa using h
      simp [List.eraseP_cons, List.erase_cons, h, ih]

theorem take_erase_of_mem (R : List ℤ) (x : ℤ) (n : ℕ) (hnd : R.Nodup) (hx : x ∈ R.take n) :
    (R.take n).erase x = (R.filter (fun y => !decide (y = x))).take (n - 1) := by
  induction R generalizing n with
  | nil => simp at hx
  | cons a R ih =>
    cases n with
    | zero => simp at hx
    | succ n =>
      rw [List.nodup_cons] at hnd
      by_cases ha : a = x
      · subst ha
        have hfil : R.filter (fun y => !decide (y = a)) = R := by
          apply List.filter_eq_self.2
          intro y hy
          simp only [Bool.not_eq_true', decide_eq_false_iff_not]
          intro hya
          exact hnd.1 (hya ▸ hy)
        simp [List.take_succ_cons, hfil]
      · have hx' : x ∈ R.take n := by
          simp only [List.take_succ_cons, List.mem_cons] at hx
          rcases hx with h | h
          · exact absurd h.symm ha
          · exact h
        have hn : 0 < n := by
          cases n with
          | zero => simp at hx'
          | succ n => omega
        have hbeq : ¬ (a == x) = true := by simpa using ha
        obtain ⟨k, rfl⟩ : ∃ k, n = k + 1 := ⟨n - 1, by omega⟩
        have hih := ih (k + 1) hnd.2 hx'
        simp only [Nat.add_sub_cancel] at hih
        simp [List.take_succ_cons, List.erase_cons, ha, hbeq, List.filter_cons, hih]

theorem take_filter_of_not_mem (R : List ℤ) (x : ℤ) (n : ℕ) (hx : x ∉ R.take n) :
    (R.filter (fun y => !decide (y = x))).take n = R.take n := by
  induction R generalizing n with
  | nil => simp
  | cons a R ih =>
    cases n with
    | zero => simp
    | succ n =>
      simp only [List.take_succ_cons, List.mem_cons, not_or] at hx
      have ha : a ≠ x := fun h => hx.1 h.symm
      simp [List.filter_cons, ha, List.take_succ_cons, ih n hx.2]

theorem loadMesh_id (fs : Files) (path : String) (origin : Point3) (m : Model) (a : AiMesh) :
    (Model.loadMesh fs path origin m a).id = m.id := by
  unfold Model.loadMesh
  simp only
  split <;> rfl

theorem foldl_loadMesh_id (fs : Files) (path : String) (origin : Point3) (scene : List AiMesh)
    (m : Model) : (scene.foldl (Model.loadMesh fs path origin) m).id = m.id := by
  induction scene generalizing m with
  | nil => rfl
  | cons a scene ih => rw [List.foldl_cons, ih, loadMesh_id]

theorem load_id (fs : Files) (m m1 : Model) (path : String) (origin : Point3)
    (h : m.load fs path origin = some m1) : m1.id = m.id := by
  unfold Model.load at h
  cases hread : fs.readFile path with
  | none => simp [hread] at h
  | some scene =>
    simp only [hread, Option.some.injEq] at h
    subst h
    exact foldl_loadMesh_id fs path origin scene m

theorem find?_id_none (l : List Model) (id : ℤ) :
    l.find? (fun ptr => decide (ptr.id = id)) = none ↔ id ∉ l.map (fun m => m.id) := by
  simp only [List.find?_eq_none, decide_eq_true_eq, List.mem_map, not_exists, not_and]

theorem find?_id_some (l : List Model) (id : ℤ) (h : id ∈ l.map (fun m => m.id)) :
    ∃ ptr, l.find? (fun ptr => decide (ptr.id = id)) = some ptr ∧ ptr.id = id ∧ ptr ∈ l := by
  cases hfind : l.find? (fun ptr => decide (ptr.id = id)) with
  | none => exact absurd h ((find?_id_none l id).1 hfind)
  | some ptr =>
    exact ⟨ptr, rfl, by simpa using List.find?_some hfind, List.mem_of_find?_eq_some hfind⟩

/-- One `get` of an id whose model can be loaded, on a cache that holds the
first `cacheLimit_` ids of a recency order. -/
theorem get_lru (fs : Files) (c : ModelCache) (R : List ℤ) (x : ℤ) (t : InputTile)
    (hlimit : 1 ≤ c.cacheLimit_) (hJ : c.ids = R.take c.cacheLimit_) (hnd : R.Nodup)
    (ht : inputAt c.input_ x = some t) (hload : (fs.readFile t.node.modelPath).isSome = true) :
    ∃ c1 m, c.get fs x = .returned c1 m ∧ m.id = x
      ∧ c1.ids = (recencyStep R x).take c.cacheLimit_
      ∧ c1.cacheLimit_ = c.cacheLimit_
      ∧ (x ∈ R.take c.cacheLimit_ →
          c1.missCnt_ = c.missCnt_ ∧ c1.hitCnt_ = c.hitCnt_ + 1 ∧ c1.input_ = c.input_
            ∧ m ∈ c.cache_)
      ∧ (x ∉ R.take c.cacheLimit_ →
          c1.missCnt_ = c.missCnt_ + 1 ∧ c1.hitCnt_ = c.hitCnt_
            ∧ c1.input_ = bumpLoadCnt c.input_ x
            ∧ (Model.create x).load fs t.node.modelPath t.node.origin = some m) := by
  obtain ⟨k, hk⟩ : ∃ k, c.cacheLimit_ = k + 1 := ⟨c.cacheLimit_ - 1, by omega⟩
  simp only [ModelCache.ids] at hJ
  by_cases hx : x ∈ R.take c.cacheLimit_
  · obtain ⟨ptr, hfind, hid, hmem⟩ := find?_id_some c.cache_ x (by rw [← hJ] at hx; exact hx)
    refine ⟨{ c with hitCnt_ := c.hitCnt_ + 1
                     cache_ := ptr :: c.cache_.eraseP (fun p => decide (p.id = x)) }, ptr,
      by simp only [ModelCache.get, hfind], hid, ?_, rfl,
      fun _ => ⟨rfl, rfl, rfl, hmem⟩, fun h => absurd hx h⟩
    have herase := take_erase_of_mem R x c.cacheLimit_ hnd hx
    simp only [ModelCache.ids, List.map_cons, map_id_eraseP, hJ, herase, hid, recencyStep]
    simp only [hk, List.take_succ_cons, Nat.add_sub_cancel]
  · have hfind : c.cache_.find? (fun ptr => decide (ptr.id = x)) = none :=
      (find?_id_none c.cache_ x).2 (by rw [← hJ] at hx; exact hx)
    obtain ⟨scene, hscene⟩ := Option.isSome_iff_exists.1 hload
    have hl : (Model.create x).load fs t.node.modelPath t.node.origin
        = some (scene.foldl (Model.loadMesh fs t.node.modelPath t.node.origin)
            (Model.create x)) := by
      simp only [Model.load, hscene]
    refine ⟨{ c with missCnt_ := c.missCnt_ + 1
                     cache_ := scene.foldl (Model.loadMesh fs t.node.modelPath t.node.origin)
                        (Model.create x) :: c.cache_.take (c.cacheLimit_ - 1)
                     input_ := bumpLoadCnt c.input_ x }, _, by
      simp only [ModelCache.get, hfind, releaseLoop_eq_take c.cacheLimit_ hlimit
        (c.cache_.length + 1) c.cache_ (Nat.lt_succ_self _), ht, hl], load_id _ _ _ _ _ hl, ?_,
      rfl, fun h => absurd h hx, fun _ => ⟨rfl, rfl, rfl, hl⟩⟩
    have hfil := take_filter_of_not_mem R x c.cacheLimit_ hx
    have hidx : (scene.foldl (Model.loadMesh fs t.node.modelPath t.node.origin)
        (Model.create x)).id = x := foldl_loadMesh_id _ _ _ _ _
    simp only [ModelCache.ids, List.map_cons, List.map_take, hJ, List.take_take, hidx,
      recencyStep]
    rw [hk] at hfil ⊢
    simp only [List.take_succ_cons, Nat.add_sub_cancel]
    congr 1
    have h2 := congrArg (List.take k) hfil
    simp only [List.take_take, Nat.min_eq_left (Nat.le_succ k)] at h2
    simpa [Nat.min_eq_left (Nat.le_succ k)] using h2.symm

theorem recencyStep_nodup (R : List ℤ) (x : ℤ) (h : R.Nodup) : (recencyStep R x).Nodup := by
  unfold recencyStep
  rw [List.nodup_cons]
  exact ⟨by simp [List.mem_filter], h.filter _⟩

theorem mem_recencyStep (R : List ℤ) (x y : ℤ) : y ∈ recencyStep R x ↔ y = x ∨ y ∈ R := by
  unfold recencyStep
  simp only [List.mem_cons, List.mem_filter, Bool.not_eq_true', decide_eq_false_iff_not]
  constructor
  · rintro (h | h)
    · exact Or.inl h
    · exact Or.inr h.1
  · rintro (h | h)
    · exact Or.inl h
    · by_cases hyx : y = x
      · exact Or.inl hyx
      · exact Or.inr ⟨h, hyx⟩

theorem foldl_recencyStep_nodup (ids R : List ℤ) (h : R.Nodup) :
    (ids.foldl recencyStep R).Nodup := by
  induction ids generalizing R with
  | nil => exact h
  | cons x ids ih => exact ih _ (recencyStep_nodup R x h)

theorem mem_foldl_recencyStep (ids R : List ℤ) (y : ℤ) :
    y ∈ ids.foldl recencyStep R ↔ y ∈ R ∨ y ∈ ids := by
  induction ids generalizing R with
  | nil => simp
  | cons x ids ih =>
    rw [List.foldl_cons, ih, mem_recencyStep, List.mem_cons]
    tauto

theorem mem_bumpLoadCnt (input : List InputTile) (x : ℤ) (t1 : InputTile)
    (h : t1 ∈ bumpLoadCnt input x) : ∃ t ∈ input, t1.node = t.node := by
  obtain ⟨n, hn⟩ := List.mem_iff_getElem?.1 h
  unfold bumpLoadCnt at hn
  rw [List.getElem?_modify] at hn
  cases hget : input[n]? with
  | none => simp [hget] at hn
  | some t =>
    simp only [hget, Option.map_eq_map, Option.map_some', Option.some.injEq] at hn
    refine ⟨t, List.mem_iff_getElem?.2 ⟨n, hget⟩, ?_⟩
    subst hn
    split <;> rfl

theorem inputAt_mem (input : List InputTile) (id : ℤ) (t : InputTile)
    (h : inputAt input id = some t) : t ∈ input := by
  unfold inputAt at h
  split at h
  · exact List.mem_iff_getElem?.2 ⟨_, h⟩
  · cases h

/-- A sequence of `get` calls whose models can all be loaded keeps the ids
of `cache_` equal to the first `cacheLimit_` ids of the recency order. -/
theorem gets_lru (fs : Files) (ids : List ℤ) (c : ModelCache) (R : List ℤ)
    (hlimit : 1 ≤ c.cacheLimit_) (hJ : c.ids = R.take c.cacheLimit_) (hnd : R.Nodup)
    (hids : ∀ id ∈ ids, 0 ≤ id ∧ id < c.input_.length)
    (hload : ∀ t ∈ c.input_, (fs.readFile t.node.modelPath).isSome = true) :
    ∃ c1, c.gets fs ids = some c1
      ∧ c1.ids = (ids.foldl recencyStep R).take c.cacheLimit_
      ∧ c1.cacheLimit_ = c.cacheLimit_
      ∧ c1.input_.length = c.input_.length
      ∧ (∀ t ∈ c1.input_, (fs.readFile t.node.modelPath).isSome = true) := by
  induction ids generalizing c R with
  | nil => exact ⟨c, rfl, hJ, rfl, rfl, hload⟩
  | cons x ids ih =>
    obtain ⟨t, ht⟩ := inputAt_isSome c.input_ x (hids x (List.mem_cons_self _ _))
    obtain ⟨c1, m, hget, -, hJ1, hlim1, hhit, hmiss⟩ :=
      get_lru fs c R x t hlimit hJ hnd ht (hload t (inputAt_mem _ _ _ ht))
    have hinput : c1.input_.length = c.input_.length
        ∧ ∀ t ∈ c1.input_, (fs.readFile t.node.modelPath).isSome = true := by
      by_cases hx : x ∈ R.take c.cacheLimit_
      · rw [(hhit hx).2.2.1]
        exact ⟨rfl, hload⟩
      · rw [(hmiss hx).2.2.1]
        refine ⟨by simp [bumpLoadCnt], ?_⟩
        intro t1 ht1
        obtain ⟨t0, ht0, hnode⟩ := mem_bumpLoadCnt _ _ _ ht1
        rw [hnode]
        exact hload t0 ht0
    obtain ⟨c2, hgets, hJ2, hlim2, hlen2, hload2⟩ :=
      ih c1 (recencyStep R x) (by rw [hlim1]; exact hlimit) (by rw [hlim1]; exact hJ1)
        (recencyStep_nodup R x hnd)
        (by
          intro id hid
          rw [hinput.1]
          exact hids id (List.mem_cons_of_mem _ hid))
        hinput.2
    refine ⟨c2, ?_, ?_, hlim2.trans hlim1, hlen2.trans hinput.1, hload2⟩
    · unfold ModelCache.gets
      rw [hget]
      exact hgets
    · rw [hJ2, hlim1, List.foldl_cons]

/-- C6. With a capacity of at least 1, ids that index the input list and
models that can all be loaded: after any sequence `ids` of `get` calls on an
empty cache, the ids of `cache_` are the first `cacheLimit` entries of the
recency order of `ids` (the distinct requested ids, most recently requested
first), so `cache_` holds min(cacheLimit, number of distinct ids) models; a
further `get(x)` returns a model with id `x` and again leaves the first
`cacheLimit` entries of the recency order; it is a hit, without a load, when
`x` is among the first `cacheLimit` entries of the recency order of `ids`,
and otherwise a miss that loads the model of `x` and counts the load. -/
theorem lru_discipline (fs : Files) (input : List InputTile) (cacheLimit : ℕ) (ids : List ℤ)
    (x : ℤ) (hlimit : 1 ≤ cacheLimit)
    (hids : ∀ id ∈ x :: ids, 0 ≤ id ∧ id < input.length)
    (hload : ∀ t ∈ input, (fs.readFile t.node.modelPath).isSome = true) :
    (recency ids).Nodup ∧ (∀ y, y ∈ recency ids ↔ y ∈ ids)
    ∧ ∃ c, (ModelCache.create input cacheLimit).gets fs ids = some c
      ∧ c.ids = (recency ids).take cacheLimit
      ∧ c.cache_.length = min cacheLimit (recency ids).length
      ∧ ∃ c1 m t, c.get fs x = .returned c1 m ∧ m.id = x
        ∧ inputAt c.input_ x = some t
        ∧ c1.ids = (recency (ids ++ [x])).take cacheLimit
        ∧ (x ∈ (recency ids).take cacheLimit →
            c1.missCnt_ = c.missCnt_ ∧ c1.hitCnt_ = c.hitCnt_ + 1 ∧ c1.input_ = c.input_
              ∧ m ∈ c.cache_)
        ∧ (x ∉ (recency ids).take cacheLimit →
            c1.missCnt_ = c.missCnt_ + 1 ∧ c1.hitCnt_ = c.hitCnt_
              ∧ c1.input_ = bumpLoadCnt c.input_ x
              ∧ (Model.create x).load fs t.node.modelPath t.node.origin = some m) := by
  have hnd : (recency ids).Nodup := foldl_recencyStep_nodup ids [] List.nodup_nil
  refine ⟨hnd, fun y => by simp [recency, mem_foldl_recencyStep], ?_⟩
  obtain ⟨c, hgets, hJ, hlim, hlen, hload1⟩ :=
    gets_lru fs ids (ModelCache.create input cacheLimit) [] hlimit
      (by simp [ModelCache.ids, ModelCache.create]) List.nodup_nil
      (fun id hid => hids id (List.mem_cons_of_mem _ hid)) hload
  have hlim1 : c.cacheLimit_ = cacheLimit := hlim
  have hJ1 : c.ids = (recency ids).take cacheLimit := hJ
  refine ⟨c, hgets, hJ1, ?_, ?_⟩
  · have := congrArg List.length hJ1
    simpa [ModelCache.ids, List.length_take] using this
  · obtain ⟨t, ht⟩ := inputAt_isSome c.input_ x
      (by rw [hlen]; exact hids x (List.mem_cons_self _ _))
    obtain ⟨c1, m, hget, hid, hJ2, -, hhit, hmiss⟩ :=
      get_lru fs c (recency ids) x t (by rw [hlim1]; exact hlimit)
        (by rw [hlim1]; exact hJ1) hnd ht (hload1 t (inputAt_mem _ _ _ ht))
    rw [hlim1] at hJ2 hhit hmiss
    refine ⟨c1, m, t, hget, hid, ht, ?_, hhit, hmiss⟩
    rw [hJ2, recency, recency, List.foldl_append]
    rfl

/-- C6, witness: capacity 2 and the requests A, B, C (ids 0, 1, 2) on the
demo input, then A again: before the second `get(A)` the cache holds C and B,
the second `get(A)` is a miss (the miss count goes up and the model is loaded
again) and leaves A and C in the cache. -/
theorem lru_discipline_witness :
    ∃ c c1 m, (ModelCache.create demoInput 2).gets demoFiles [0, 1, 2] = some c
      ∧ c.ids = [2, 1]
      ∧ c.get demoFiles 0 = .returned c1 m
      ∧ c1.missCnt_ = c.missCnt_ + 1
      ∧ c1.input_ = bumpLoadCnt c.input_ 0
      ∧ c1.ids = [0, 2] := by
  obtain ⟨-, -, c, hgets, hids, -, c1, m, t, hget, -, -, hids1, -, hmiss⟩ :=
    lru_discipline demoFiles demoInput 2 [0, 1, 2] 0 (by decide) (by decide)
      (by intro t ht; rfl)
  have hr : (recency [0, 1, 2]).take 2 = [2, 1] := by decide
  have hr1 : (recency ([0, 1, 2] ++ [0])).take 2 = [0, 2] := by decide
  rw [hr] at hids hmiss
  rw [hr1] at hids1
  have hm := hmiss (by decide)
  exact ⟨c, c1, m, hgets, hids, hget, hm.1, hm.2.2.1, hids1⟩

end CacheFacts

section EncoderFacts

theorem convertAll_total (conv : Point3 → Option Point3) (hconv : ∀ p, (conv p).isSome = true)
    (vs : List Point3) : ∃ ws, convertAll conv vs = some ws := by
  induction vs with
  | nil => exact ⟨[], rfl⟩
  | cons v vs ih =>
    obtain ⟨w, hw⟩ := Option.isSome_iff_exists.1 (hconv v)
    obtain ⟨ws, hws⟩ := ih
    exact ⟨w :: ws, by simp only [convertAll, hw, hws]⟩

theorem warpInPlace_total (conv : Point3 → Option Point3) (hconv : ∀ p, (conv p).isSome = true)
    (sm : SubMesh) : ∃ w, warpInPlace conv sm = some w := by
  obtain ⟨ws, hws⟩ := convertAll_total conv hconv sm.vertices
  exact ⟨{ sm with vertices := ws }, by simp only [warpInPlace, hws]⟩

theorem loadMesh_aligned (fs : Files) (htex : ∀ p, (fs.readBinary p).isSome = true)
    (path : String) (origin : Point3) (m : Model) (a : AiMesh)
    (h : m.mesh.length = m.atlas.length) :
    (Model.loadMesh fs path origin m a).mesh.length
      = (Model.loadMesh fs path origin m a).atlas.length := by
  unfold Model.loadMesh
  simp only
  split
  · simp [h]
  · next hnone =>
    have := htex (if a.texFile ≠ "" then fs.sibling path a.texFile else "/home/jakub/empty.jpg")
    rw [hnone] at this
    cases this

theorem foldl_loadMesh_aligned (fs : Files) (htex : ∀ p, (fs.readBinary p).isSome = true)
    (path : String) (origin : Point3) (scene : List AiMesh) (m : Model)
    (h : m.mesh.length = m.atlas.length) :
    (scene.foldl (Model.loadMesh fs path origin) m).mesh.length
      = (scene.foldl (Model.loadMesh fs path origin) m).atlas.length := by
  induction scene generalizing m with
  | nil => exact h
  | cons a scene ih =>
    rw [List.foldl_cons]
    exact ih _ (loadMesh_aligned fs htex path origin m a h)

theorem load_aligned (fs : Files) (htex : ∀ p, (fs.readBinary p).isSome = true)
    (m m1 : Model) (path : String) (origin : Point3) (h : m.mesh.length = m.atlas.length)
    (hl : m.load fs path origin = some m1) : m1.mesh.length = m1.atlas.length := by
  unfold Model.load at hl
  cases hread : fs.readFile path with
  | none => simp [hread] at hl
  | some scene =>
    simp only [hread, Option.some.injEq] at hl
    subst hl
    exact foldl_loadMesh_aligned fs htex path origin scene m h

theorem addSubmeshes_lengths (ops : MeshOps) (conv1 conv2 : Point3 → Option Point3)
    (ext : Extents2) (model : Model) (rest : List SubMesh) (smIndex : ℕ)
    (out out1 : Mesh × RawAtlas) (u : Unit)
    (h : addSubmeshes ops conv1 conv2 ext model rest smIndex out = .returned u out1)
    (hlen : out.2.length = out.1.length) : out1.2.length = out1.1.length := by
  induction rest generalizing smIndex out with
  | nil =>
    simp only [addSubmeshes, Outcome.returned.injEq] at h
    rw [← h.2]
    exact hlen
  | cons sm rest ih =>
    obtain ⟨mesh, atlas⟩ := out
    unfold addSubmeshes at h
    cases hw : warpInPlace conv1 sm with
    | none => simp [hw] at h
    | some copy =>
      simp only [hw] at h
      split at h
      · split at h
        · cases h
        · split at h
          · cases h
          · exact ih _ _ h (by simp at hlen ⊢; exact hlen)
      · exact ih _ _ h hlen

theorem addModels_lengths (ops : MeshOps) (conv1 conv2 : Point3 → Option Point3)
    (ext : Extents2) (models : List Model) (out out1 : Mesh × RawAtlas) (u : Unit)
    (h : addModels ops conv1 conv2 ext models out = .returned u out1)
    (hlen : out.2.length = out.1.length) : out1.2.length = out1.1.length := by
  induction models generalizing out with
  | nil =>
    simp only [addModels, Outcome.returned.injEq] at h
    rw [← h.2]
    exact hlen
  | cons m models ih =>
    unfold addModels at h
    cases hadd : addSubmeshes ops conv1 conv2 ext m m.mesh 0 out with
    | undefined => simp [hadd] at h
    | threw u1 => simp [hadd] at h
    | returned u1 out2 =>
      simp only [hadd] at h
      exact ih _ h (addSubmeshes_lengths ops conv1 conv2 ext m m.mesh 0 out out2 u1 hadd hlen)

theorem loadedModel_bumpLoadCnt (fs : Files) (input : List InputTile) (id x : ℤ) :
    loadedModel fs (bumpLoadCnt input id) x = loadedModel fs input x := by
  unfold loadedModel inputAt bumpLoadCnt
  by_cases hx : 0 ≤ x
  · simp only [hx, if_true, List.getElem?_modify]
    cases h : input[x.toNat]? with
    | none => simp
    | some t => by_cases hid : id.toNat = x.toNat <;> simp [hid]
  · simp only [hx, if_false]

theorem loadedModel_id (fs : Files) (input : List InputTile) (id : ℤ) (m : Model)
    (h : loadedModel fs input id = some m) : m.id = id := by
  unfold loadedModel at h
  cases ht : inputAt input id with
  | none => simp [ht] at h
  | some t =>
    simp only [ht] at h
    exact load_id fs _ _ _ _ h

theorem loadedModel_aligned (fs : Files) (htex : ∀ p, (fs.readBinary p).isSome = true)
    (input : List InputTile) (id : ℤ) (m : Model)
    (h : loadedModel fs input id = some m) : m.mesh.length = m.atlas.length := by
  unfold loadedModel at h
  cases ht : inputAt input id with
  | none => simp [ht] at h
  | some t =>
    simp only [ht] at h
    exact load_aligned fs htex _ _ _ _ rfl h


/-- One `get` on a cache of loaded models, with a capacity of at least 1, an
id that indexes the input list and files that can all be read: it returns the
model the loader produces for the id and leaves a cache of loaded models. -/
theorem get_loaded (fs : Files) (c : ModelCache) (id : ℤ) (hlimit : 1 ≤ c.cacheLimit_)
    (hid : 0 ≤ id ∧ id < c.input_.length)
    (hload : ∀ t ∈ c.input_, (fs.readFile t.node.modelPath).isSome = true)
    (hcache : c.loaded fs) :
    ∃ c1 m, c.get fs id = .returned c1 m
      ∧ loadedModel fs c.input_ id = some m
      ∧ c1.cacheLimit_ = c.cacheLimit_
      ∧ c1.input_.length = c.input_.length
      ∧ (∀ t ∈ c1.input_, (fs.readFile t.node.modelPath).isSome = true)
      ∧ (∀ x, loadedModel fs c1.input_ x = loadedModel fs c.input_ x)
      ∧ c1.loaded fs := by
  obtain ⟨t, ht⟩ := inputAt_isSome c.input_ id hid
  cases hfind : c.cache_.find? (fun ptr => decide (ptr.id = id)) with
  | some ptr =>
    have hmem := List.mem_of_find?_eq_some hfind
    have hpid : ptr.id = id := by simpa using List.find?_some hfind
    refine ⟨{ c with hitCnt_ := c.hitCnt_ + 1
                     cache_ := ptr :: c.cache_.eraseP (fun p => decide (p.id = id)) }, ptr,
      by simp only [ModelCache.get, hfind], by rw [← hpid]; exact hcache ptr hmem, rfl, rfl,
      hload, fun _ => rfl, ?_⟩
    intro m hm
    rcases List.mem_cons.1 hm with rfl | hm
    · exact hcache _ hmem
    · exact hcache m (List.mem_of_mem_eraseP hm)
  | none =>
    obtain ⟨scene, hscene⟩ := Option.isSome_iff_exists.1 (hload t (inputAt_mem _ _ _ ht))
    have hl : (Model.create id).load fs t.node.modelPath t.node.origin
        = some (scene.foldl (Model.loadMesh fs t.node.modelPath t.node.origin)
            (Model.create id)) := by
      simp only [Model.load, hscene]
    have hlm : loadedModel fs c.input_ id
        = some (scene.foldl (Model.loadMesh fs t.node.modelPath t.node.origin)
            (Model.create id)) := by
      simp only [loadedModel, ht, hl]
    refine ⟨{ c with missCnt_ := c.missCnt_ + 1
                     cache_ := scene.foldl (Model.loadMesh fs t.node.modelPath t.node.origin)
                        (Model.create id) :: c.cache_.take (c.cacheLimit_ - 1)
                     input_ := bumpLoadCnt c.input_ id }, _, by
      simp only [ModelCache.get, hfind, releaseLoop_eq_take c.cacheLimit_ hlimit
        (c.cache_.length + 1) c.cache_ (Nat.lt_succ_self _), ht, hl], hlm, rfl,
      by simp [bumpLoadCnt], ?_, fun x => loadedModel_bumpLoadCnt fs c.input_ id x, ?_⟩
    · intro t1 ht1
      obtain ⟨t0, ht0, hnode⟩ := mem_bumpLoadCnt _ _ _ ht1
      rw [hnode]
      exact hload t0 ht0
    · intro m hm
      show loadedModel fs (bumpLoadCnt c.input_ id) m.id = some m
      rw [loadedModel_bumpLoadCnt]
      rcases List.mem_cons.1 hm with rfl | hm
      · rw [loadedModel_id fs c.input_ id _ hlm]
        exact hlm
      · exact hcache m (List.mem_of_mem_take hm)

/-- The fetch loop of `generate` on a cache of loaded models: it returns, in
the order of the ids, the models the loader produces for them, and leaves the
cache the `get` calls leave. -/
theorem getModels_loaded (fs : Files) (ids : List ℤ) (c : ModelCache)
    (hlimit : 1 ≤ c.cacheLimit_) (hids : ∀ id ∈ ids, 0 ≤ id ∧ id < c.input_.length)
    (hload : ∀ t ∈ c.input_, (fs.readFile t.node.modelPath).isSome = true)
    (hcache : c.loaded fs) :
    ∃ c1, getModels fs c ids = .returned c1 (ids.filterMap (loadedModel fs c.input_))
      ∧ ModelCache.gets fs c ids = some c1
      ∧ (ids.filterMap (loadedModel fs c.input_)).map (fun m => m.id) = ids
      ∧ c1.loaded fs := by
  induction ids generalizing c with
  | nil => exact ⟨c, rfl, rfl, rfl, hcache⟩
  | cons id ids ih =>
    obtain ⟨c1, m, hget, hm, hlim, hlen, hload1, hsame, hcache1⟩ :=
      get_loaded fs c id hlimit (hids id (List.mem_cons_self _ _)) hload hcache
    obtain ⟨c2, hgm, hgets, hmap, hcache2⟩ := ih c1 (by rw [hlim]; exact hlimit)
      (fun id' hid' => by rw [hlen]; exact hids id' (List.mem_cons_of_mem _ hid'))
      hload1 hcache1
    have hfun : loadedModel fs c1.input_ = loadedModel fs c.input_ := funext hsame
    rw [hfun] at hgm hmap
    refine ⟨c2, ?_, ?_, ?_, hcache2⟩
    · simp only [getModels, hget, hgm, List.filterMap_cons, hm]
    · simp only [ModelCache.gets, hget, Outcome.state?, hgets]
    · simp only [List.filterMap_cons, hm, List.map_cons, hmap,
        loadedModel_id fs c.input_ id m hm]

theorem addSubmeshes_aligned (ops : MeshOps) (conv1 conv2 : Point3 → Option Point3)
    (ext : Extents2) (model : Model) (hconv1 : ∀ p, (conv1 p).isSome = true)
    (hconv2 : ∀ p, (conv2 p).isSome = true) (rest : List SubMesh) (smIndex : ℕ)
    (mesh : Mesh) (atlas : RawAtlas) (halign : smIndex + rest.length ≤ model.atlas.length) :
    addSubmeshes ops conv1 conv2 ext model rest smIndex (mesh, atlas)
      = .returned () (mesh ++ rest.filterMap (clipOne ops conv1 conv2 ext),
          atlas ++ (rest.zip (model.atlas.drop smIndex)).filterMap
            (textureOne ops conv1 conv2 ext)) := by
  induction rest generalizing smIndex mesh atlas with
  | nil => simp [addSubmeshes]
  | cons sm rest ih =>
    obtain ⟨copy, hcopy⟩ := warpInPlace_total conv1 hconv1 sm
    simp only [List.length_cons] at halign
    have hlt : smIndex < model.atlas.length := by omega
    have himg : model.atlas[smIndex]? = some model.atlas[smIndex] :=
      List.getElem?_eq_getElem hlt
    rw [List.drop_eq_getElem_cons hlt, List.zip_cons_cons, List.filterMap_cons,
      List.filterMap_cons]
    by_cases hempty : (ops.clip copy ext).empty = true
    · have hone : clipOne ops conv1 conv2 ext sm = none := by
        simp only [clipOne, hcopy, hempty, if_true]
      simp only [addSubmeshes, hcopy, hempty, Bool.not_true, Bool.false_eq_true, if_false,
        ih (smIndex + 1) mesh atlas (by omega), hone, textureOne]
    · obtain ⟨clipped, hclipped⟩ := warpInPlace_total conv2 hconv2 (ops.clip copy ext)
      have hone : clipOne ops conv1 conv2 ext sm = some clipped := by
        simp only [clipOne, hcopy, hempty, if_false, hclipped, Bool.false_eq_true]
      have hne : (!(ops.clip copy ext).empty) = true := by simpa using hempty
      simp only [addSubmeshes, hcopy, hne, if_true, hclipped, himg,
        ih (smIndex + 1) (mesh ++ [clipped]) (atlas ++ [model.atlas[smIndex]]) (by omega),
        hone, textureOne, List.append_assoc, List.singleton_append]

theorem addModels_aligned (ops : MeshOps) (conv1 conv2 : Point3 → Option Point3)
    (ext : Extents2) (hconv1 : ∀ p, (conv1 p).isSome = true)
    (hconv2 : ∀ p, (conv2 p).isSome = true) (models : List Model)
    (halign : ∀ m ∈ models, m.mesh.length = m.atlas.length) (mesh : Mesh) (atlas : RawAtlas) :
    addModels ops conv1 conv2 ext models (mesh, atlas)
      = .returned () (mesh ++ clippedSubmeshes ops conv1 conv2 ext models,
          atlas ++ clippedTextures ops conv1 conv2 ext models) := by
  induction models generalizing mesh atlas with
  | nil => simp [addModels, clippedSubmeshes, clippedTextures]
  | cons m models ih =>
    have h1 := addSubmeshes_aligned ops conv1 conv2 ext m hconv1 hconv2 m.mesh 0
      mesh atlas (by rw [halign m (List.mem_cons_self _ _)]; omega)
    rw [List.drop_zero] at h1
    simp only [addModels, h1, ih (fun m' hm' => halign m' (List.mem_cons_of_mem _ hm')),
      clippedSubmeshes, clippedTextures, List.flatMap_cons, List.append_assoc]


theorem clipOne_eq_none_iff (ops : MeshOps) (conv1 conv2 : Point3 → Option Point3)
    (ext : Extents2) (hconv2 : ∀ p, (conv2 p).isSome = true) (sm : SubMesh) :
    clipOne ops conv1 conv2 ext sm = none ↔
      ∀ copy, warpInPlace conv1 sm = some copy → (ops.clip copy ext).empty = true := by
  unfold clipOne
  cases hw : warpInPlace conv1 sm with
  | none => simp
  | some copy =>
    by_cases hempty : (ops.clip copy ext).empty = true
    · simp [hempty]
    · obtain ⟨w, hw2⟩ := warpInPlace_total conv2 hconv2 (ops.clip copy ext)
      simp [hempty, hw2]

theorem clippedSubmeshes_eq_nil_iff (ops : MeshOps) (conv1 conv2 : Point3 → Option Point3)
    (ext : Extents2) (hconv2 : ∀ p, (conv2 p).isSome = true) (models : List Model) :
    clippedSubmeshes ops conv1 conv2 ext models = [] ↔
      ∀ m ∈ models, ∀ sm ∈ m.mesh, ∀ copy,
        warpInPlace conv1 sm = some copy → (ops.clip copy ext).empty = true := by
  unfold clippedSubmeshes
  simp only [List.flatMap_eq_nil_iff, List.filterMap_eq_nil_iff,
    clipOne_eq_none_iff ops conv1 conv2 ext hconv2]

/-- C7. Let every load and every conversion succeed: a capacity of at least
1, source ids that index the input list, model and texture files that can all
be read, a cache whose models are the loaded models of their ids, total
conversions. Then `generate` returns, in the cache the `get` calls for the
source ids leave, again a cache of loaded models. The contributing models are
the loaded models of the source ids, one per id and in order. The result is
`noDataYet` if and only if the source list of the tile is empty or every
submesh of every contributing model clips to an empty submesh against the
extents of the tile; otherwise it is the tile whose mesh and atlas are the
merge of the non-empty clipped submeshes of the contributing models and of
their textures. -/
theorem generate_noData_iff (ops : MeshOps) (fs : Files)
    (conv3 : Srs → Srs → Point3 → Option Point3) (enc : Encoder) (tileId : TileId)
    (nodeInfo : NodeInfo)
    (hlimit : 1 ≤ enc.modelCache_.cacheLimit_)
    (hids : ∀ id ∈ enc.tileMap_.source tileId, 0 ≤ id ∧ id < enc.modelCache_.input_.length)
    (hload : ∀ t ∈ enc.modelCache_.input_, (fs.readFile t.node.modelPath).isSome = true)
    (htex : ∀ p, (fs.readBinary p).isSome = true)
    (hcache : enc.modelCache_.loaded fs)
    (hconv1 : ∀ p, (conv3 enc.inputSrs_ nodeInfo.srs p).isSome = true)
    (hconv2 : ∀ p, (conv3 nodeInfo.srs enc.referenceFrame.physicalSrs p).isSome = true) :
    ∃ c r,
      enc.generate ops fs conv3 tileId nodeInfo = .returned c r
      ∧ ModelCache.gets fs enc.modelCache_ (enc.tileMap_.source tileId) = some c
      ∧ c.loaded fs
      ∧ (contributors fs enc tileId).map (fun m => m.id) = enc.tileMap_.source tileId
      ∧ (r = .noDataYet ↔
          (enc.tileMap_.source tileId = [] ∨
            ∀ m ∈ contributors fs enc tileId, ∀ sm ∈ m.mesh, ∀ copy,
              warpInPlace (conv3 enc.inputSrs_ nodeInfo.srs) sm = some copy →
              (ops.clip copy nodeInfo.extents).empty = true))
      ∧ (r ≠ .noDataYet →
          r = .tile
            (ops.mergeSubmeshes tileId
              (clippedSubmeshes ops (conv3 enc.inputSrs_ nodeInfo.srs)
                (conv3 nodeInfo.srs enc.referenceFrame.physicalSrs) nodeInfo.extents
                (contributors fs enc tileId))
              (clippedTextures ops (conv3 enc.inputSrs_ nodeInfo.srs)
                (conv3 nodeInfo.srs enc.referenceFrame.physicalSrs) nodeInfo.extents
                (contributors fs enc tileId))
              enc.config_.textureQuality).1
            (some (ops.mergeSubmeshes tileId
              (clippedSubmeshes ops (conv3 enc.inputSrs_ nodeInfo.srs)
                (conv3 nodeInfo.srs enc.referenceFrame.physicalSrs) nodeInfo.extents
                (contributors fs enc tileId))
              (clippedTextures ops (conv3 enc.inputSrs_ nodeInfo.srs)
                (conv3 nodeInfo.srs enc.referenceFrame.physicalSrs) nodeInfo.extents
                (contributors fs enc tileId))
              enc.config_.textureQuality).2)) := by
  obtain ⟨c, hgm, hgets, hmap, hcache1⟩ := getModels_loaded fs (enc.tileMap_.source tileId)
    enc.modelCache_ hlimit hids hload hcache
  have hms : ∀ m ∈ contributors fs enc tileId, m.mesh.length = m.atlas.length := by
    intro m hm
    obtain ⟨id, -, hid⟩ := List.mem_filterMap.1 hm
    exact loadedModel_aligned fs htex _ id m hid
  have hadd := addModels_aligned ops (conv3 enc.inputSrs_ nodeInfo.srs)
    (conv3 nodeInfo.srs enc.referenceFrame.physicalSrs) nodeInfo.extents hconv1 hconv2
    (contributors fs enc tileId) hms [] []
  rw [List.nil_append, List.nil_append] at hadd
  have hlen := addModels_lengths ops _ _ _ _ ([], []) _ () hadd rfl
  simp only at hlen
  have hnil := clippedSubmeshes_eq_nil_iff ops (conv3 enc.inputSrs_ nodeInfo.srs)
    (conv3 nodeInfo.srs enc.referenceFrame.physicalSrs) nodeInfo.extents hconv2
    (contributors fs enc tileId)
  change getModels fs enc.modelCache_ (enc.tileMap_.source tileId)
    = .returned c (contributors fs enc tileId) at hgm
  by_cases hsrc : enc.tileMap_.source tileId = []
  · refine ⟨enc.modelCache_, .noDataYet, ?_, by rw [hsrc]; rfl, hcache, hmap, by simp [hsrc],
      by simp⟩
    simp only [Encoder.generate, hsrc, List.isEmpty_nil, if_true]
  · have hne : (enc.tileMap_.source tileId).isEmpty = false := by
      cases h : enc.tileMap_.source tileId with
      | nil => exact absurd h hsrc
      | cons a l => rfl
    by_cases hmesh : clippedSubmeshes ops (conv3 enc.inputSrs_ nodeInfo.srs)
        (conv3 nodeInfo.srs enc.referenceFrame.physicalSrs) nodeInfo.extents
        (contributors fs enc tileId) = []
    · refine ⟨c, .noDataYet, ?_, hgets, hcache1, hmap, ?_, by simp⟩
      · simp only [Encoder.generate, hne, Bool.false_eq_true, if_false, hgm, hadd, hmesh,
          List.isEmpty_nil, if_true]
      · simp only [true_iff]
        exact Or.inr (hnil.1 hmesh)
    · have hne2 : (clippedSubmeshes ops (conv3 enc.inputSrs_ nodeInfo.srs)
          (conv3 nodeInfo.srs enc.referenceFrame.physicalSrs) nodeInfo.extents
          (contributors fs enc tileId)).isEmpty = false := by
        cases h : clippedSubmeshes ops (conv3 enc.inputSrs_ nodeInfo.srs)
            (conv3 nodeInfo.srs enc.referenceFrame.physicalSrs) nodeInfo.extents
            (contributors fs enc tileId) with
        | nil => exact absurd h hmesh
        | cons a l => rfl
      have hne3 : (clippedTextures ops (conv3 enc.inputSrs_ nodeInfo.srs)
          (conv3 nodeInfo.srs enc.referenceFrame.physicalSrs) nodeInfo.extents
          (contributors fs enc tileId)).isEmpty = false := by
        cases h : clippedTextures ops (conv3 enc.inputSrs_ nodeInfo.srs)
            (conv3 nodeInfo.srs enc.referenceFrame.physicalSrs) nodeInfo.extents
            (contributors fs enc tileId) with
        | nil =>
          rw [h] at hlen
          exact absurd (List.length_eq_zero.1 hlen.symm) hmesh
        | cons a l => rfl
      refine ⟨c, _, ?_, hgets, hcache1, hmap, ?_, fun _ => rfl⟩
      · simp only [Encoder.generate, hne, Bool.false_eq_true, if_false, hgm, hadd, hne2, hne3]
      · constructor
        · intro h; cases h
        · rintro (h | h)
          · exact absurd h hsrc
          · exact absurd (hnil.2 h) hmesh

/-- C7, witness: the demo encoder with files that can all be read. Tile
3-0-3 has the source ids 0 and 1, the contributing models are the loaded
models of the ids 0 and 1, their triangles lie inside the tile, and
`generate` returns the tile with the two submeshes and the two textures.
Tile 3-1-3 has the same source ids and `generate` returns `noDataYet`: every
submesh of every contributing model clips to an empty submesh against its
extents. -/
theorem generate_noData_iff_witness :
    (∃ c, demoEncoder.generate demoOps demoFiles demoConv3 ⟨3, 0, 3⟩ demoNodeInfo
        = .returned c (.tile [demoSubMesh, demoSubMesh] (some [[255, 216], [255, 216]])))
    ∧ demoEncoder.tileMap_.source ⟨3, 0, 3⟩ = [0, 1]
    ∧ (contributors demoFiles demoEncoder ⟨3, 0, 3⟩).map (fun m => m.id) = [0, 1]
    ∧ ¬ (∀ m ∈ contributors demoFiles demoEncoder ⟨3, 0, 3⟩, ∀ sm ∈ m.mesh, ∀ copy,
          warpInPlace (demoConv3 demoEncoder.inputSrs_ demoNodeInfo.srs) sm = some copy →
          (demoOps.clip copy demoNodeInfo.extents).empty = true)
    ∧ (∃ c, demoEncoder.generate demoOps demoFiles demoConv3 ⟨3, 1, 3⟩ demoNodeInfoNext
        = .returned c .noDataYet)
    ∧ demoEncoder.tileMap_.source ⟨3, 1, 3⟩ = [0, 1]
    ∧ (∀ m ∈ contributors demoFiles demoEncoder ⟨3, 1, 3⟩, ∀ sm ∈ m.mesh, ∀ copy,
          warpInPlace (demoConv3 demoEncoder.inputSrs_ demoNodeInfoNext.srs) sm = some copy →
          (demoOps.clip copy demoNodeInfoNext.extents).empty = true) := by
  obtain ⟨c, r, h1, -, -, h3, h4, -⟩ :=
    generate_noData_iff demoOps demoFiles demoConv3 demoEncoder ⟨3, 0, 3⟩ demoNodeInfo
      (by decide) (by decide!) (fun _ _ => rfl) (fun _ => rfl)
      (by intro m hm; simp [demoEncoder, ModelCache.create] at hm) (fun _ => rfl) (fun _ => rfl)
  obtain ⟨c', r', k1, -, -, -, k4, -⟩ :=
    generate_noData_iff demoOps demoFiles demoConv3 demoEncoder ⟨3, 1, 3⟩ demoNodeInfoNext
      (by decide) (by decide!) (fun _ _ => rfl) (fun _ => rfl)
      (by intro m hm; simp [demoEncoder, ModelCache.create] at hm) (fun _ => rfl) (fun _ => rfl)
  have hsrc : demoEncoder.tileMap_.source ⟨3, 0, 3⟩ = [0, 1] := by decide!
  have ksrc : demoEncoder.tileMap_.source ⟨3, 1, 3⟩ = [0, 1] := by decide!
  have hval : (demoEncoder.generate demoOps demoFiles demoConv3 ⟨3, 0, 3⟩ demoNodeInfo).value?
      = some (.tile [demoSubMesh, demoSubMesh] (some [[255, 216], [255, 216]])) := by decide!
  have kval : (demoEncoder.generate demoOps demoFiles demoConv3 ⟨3, 1, 3⟩
      demoNodeInfoNext).value? = some .noDataYet := by decide!
  rw [h1] at hval
  rw [k1] at kval
  simp only [Outcome.value?, Option.some.injEq] at hval kval
  subst hval
  subst kval
  refine ⟨⟨c, h1⟩, hsrc, by rw [h3, hsrc], ?_, ⟨c', k1⟩, ksrc, ?_⟩
  · intro hall
    have := h4.2 (Or.inr hall)
    cases this
  · rcases k4.1 rfl with hnil | hall
    · rw [ksrc] at hnil
      cases hnil
    · exact hall

theorem inputAt_bumpLoadCnt (input : List InputTile) (id x : ℤ) (t1 : InputTile)
    (h : inputAt (bumpLoadCnt input id) x = some t1) :
    ∃ t, inputAt input x = some t ∧ t1.node = t.node := by
  unfold inputAt at h ⊢
  by_cases hx : 0 ≤ x
  · rw [if_pos hx] at h ⊢
    unfold bumpLoadCnt at h
    rw [List.getElem?_modify] at h
    cases hget : input[x.toNat]? with
    | none => simp [hget] at h
    | some t =>
      simp only [hget, Option.map_eq_map, Option.map_some', Option.some.injEq] at h
      refine ⟨t, rfl, ?_⟩
      subst h
      split <;> rfl
  · rw [if_neg hx] at h
    cases h

/-- What a `get` that returns leaves behind. -/
theorem get_returned_facts (fs : Files) (c c1 : ModelCache) (id : ℤ) (m : Model)
    (h : c.get fs id = .returned c1 m) :
    (∀ y ∈ c1.ids, y = id ∨ y ∈ c.ids)
    ∧ (∀ x t1, inputAt c1.input_ x = some t1 →
        ∃ t, inputAt c.input_ x = some t ∧ t1.node = t.node)
    ∧ (id ∉ c.ids → ∀ t, inputAt c.input_ id = some t →
        (fs.readFile t.node.modelPath).isSome = true) := by
  unfold ModelCache.get at h
  cases hfind : c.cache_.find? (fun ptr => decide (ptr.id = id)) with
  | some ptr =>
    simp only [hfind, Outcome.returned.injEq] at h
    obtain ⟨rfl, rfl⟩ := h
    have hid : ptr.id = id := by simpa using List.find?_some hfind
    refine ⟨?_, fun x t1 ht1 => ⟨t1, ht1, rfl⟩, ?_⟩
    · intro y hy
      simp only [ModelCache.ids, List.map_cons, List.mem_cons, map_id_eraseP] at hy
      rcases hy with hy | hy
      · exact Or.inl (hy.trans hid)
      · exact Or.inr (List.mem_of_mem_erase hy)
    · intro hnot
      exact absurd (List.mem_map.2 ⟨ptr, List.mem_of_find?_eq_some hfind, hid⟩) hnot
  | none =>
    simp only [hfind] at h
    cases hrel : releaseLoop c.cacheLimit_ (c.cache_.length + 1) c.cache_ with
    | none => simp [hrel] at h
    | some kept =>
      simp only [hrel] at h
      cases hin : inputAt c.input_ id with
      | none => simp [hin] at h
      | some t =>
        simp only [hin] at h
        cases hl : (Model.create id).load fs t.node.modelPath t.node.origin with
        | none => simp [hl] at h
        | some loaded =>
          simp only [hl, Outcome.returned.injEq] at h
          obtain ⟨rfl, rfl⟩ := h
          have hkept : ∀ k ∈ kept, k ∈ c.cache_ := by
            intro k hk
            by_cases hlim : 1 ≤ c.cacheLimit_
            · rw [releaseLoop_eq_take c.cacheLimit_ hlim _ _ (Nat.lt_succ_self _)] at hrel
              cases hrel
              exact List.mem_of_mem_take hk
            · have := releaseLoop_length _ _ _ _ hrel
              omega
          refine ⟨?_, fun x t1 ht1 => inputAt_bumpLoadCnt _ _ _ _ ht1, ?_⟩
          · intro y hy
            simp only [ModelCache.ids, List.map_cons, List.mem_cons, List.mem_map] at hy
            rcases hy with hy | ⟨k, hk, rfl⟩
            · exact Or.inl (hy.trans (load_id _ _ _ _ _ hl))
            · exact Or.inr (List.mem_map.2 ⟨k, hkept k hk, rfl⟩)
          · intro _ t' ht'
            cases ht'
            unfold Model.load at hl
            cases hread : fs.readFile t.node.modelPath with
            | none => simp [hread] at hl
            | some scene => rfl

theorem getModels_throws (fs : Files) (ids : List ℤ) (c : ModelCache)
    (hlimit : 1 ≤ c.cacheLimit_) (hids : ∀ id ∈ ids, 0 ≤ id ∧ id < c.input_.length)
    (hfail : ∃ x ∈ ids, x ∉ c.ids
      ∧ ∀ t, inputAt c.input_ x = some t → fs.readFile t.node.modelPath = none) :
    ∃ c1, getModels fs c ids = .threw c1 := by
  induction ids generalizing c with
  | nil =>
    obtain ⟨x, hx, -⟩ := hfail
    simp at hx
  | cons id ids ih =>
    obtain ⟨cs, hstate, hlen, hlim⟩ :=
      get_defined fs c id hlimit (hids id (List.mem_cons_self _ _))
    cases hget : c.get fs id with
    | undefined => simp [hget, Outcome.state?] at hstate
    | threw c1 => exact ⟨c1, by simp only [getModels, hget]⟩
    | returned c1 m =>
      simp only [hget, Outcome.state?, Option.some.injEq] at hstate
      subst hstate
      obtain ⟨hsub, hnode, hsome⟩ := get_returned_facts fs c c1 id m hget
      obtain ⟨x, hx, hxc, hxf⟩ := hfail
      have hxid : x ≠ id := by
        rintro rfl
        obtain ⟨t, ht⟩ := inputAt_isSome c.input_ x (hids x (List.mem_cons_self _ _))
        have h1 := hsome hxc t ht
        rw [hxf t ht] at h1
        cases h1
      have hxids : x ∈ ids := by
        rcases List.mem_cons.1 hx with h | h
        · exact absurd h hxid
        · exact h
      obtain ⟨c2, hc2⟩ := ih c1 (by rw [hlim]; exact hlimit)
        (fun id' hid' => by rw [hlen]; exact hids id' (List.mem_cons_of_mem _ hid'))
        ⟨x, hxids, fun hmem => (hsub x hmem).elim hxid hxc, fun t1 ht1 => by
          obtain ⟨t, ht, hn⟩ := hnode x t1 ht1
          rw [hn]
          exact hxf t ht⟩
      exact ⟨c2, by simp only [getModels, hget, hc2]⟩

theorem addSubmeshes_not_returned (ops : MeshOps) (conv1 conv2 : Point3 → Option Point3)
    (ext : Extents2) (model : Model) (rest : List SubMesh)
    (hfail : ∃ sm ∈ rest, warpInPlace conv1 sm = none) (smIndex : ℕ) (out out1 : Mesh × RawAtlas) :
    addSubmeshes ops conv1 conv2 ext model rest smIndex out ≠ .returned () out1 := by
  induction rest generalizing smIndex out with
  | nil =>
    obtain ⟨sm, hsm, -⟩ := hfail
    simp at hsm
  | cons sm rest ih =>
    obtain ⟨mesh, atlas⟩ := out
    unfold addSubmeshes
    cases hw : warpInPlace conv1 sm with
    | none => simp
    | some copy =>
      have hrest : ∃ sm' ∈ rest, warpInPlace conv1 sm' = none := by
        obtain ⟨sm', hsm', hf⟩ := hfail
        rcases List.mem_cons.1 hsm' with rfl | h
        · rw [hw] at hf; cases hf
        · exact ⟨sm', h, hf⟩
      simp only
      split
      · split
        · simp
        · split
          · simp
          · exact ih hrest _ _
      · exact ih hrest _ _

theorem addModels_not_returned (ops : MeshOps) (conv1 conv2 : Point3 → Option Point3)
    (ext : Extents2) (models : List Model)
    (hfail : ∃ m ∈ models, ∃ sm ∈ m.mesh, warpInPlace conv1 sm = none)
    (out out1 : Mesh × RawAtlas) :
    addModels ops conv1 conv2 ext models out ≠ .returned () out1 := by
  induction models generalizing out with
  | nil =>
    obtain ⟨m, hm, -⟩ := hfail
    simp at hm
  | cons m models ih =>
    unfold addModels
    cases hadd : addSubmeshes ops conv1 conv2 ext m m.mesh 0 out with
    | undefined => simp
    | threw u => simp
    | returned u out2 =>
      simp only
      apply ih
      obtain ⟨m', hm', sm, hsm, hf⟩ := hfail
      rcases List.mem_cons.1 hm' with rfl | h
      · exact absurd hadd (addSubmeshes_not_returned ops conv1 conv2 ext m' m'.mesh
          ⟨sm, hsm, hf⟩ 0 out out2)
      · exact ⟨m', h, sm, hsm, hf⟩

/-- C8, as amended. `generate` has no isolation of a failing piece. With a
capacity of at least 1 and source ids that index the input list, when the
model file of a source piece that is not in the cache cannot be read,
`generate` throws; and when the source models are fetched and the conversion
of a vertex of one of their submeshes into the SRS of the tile throws,
`generate` does not return a result. -/
theorem generate_propagates_failure (ops : MeshOps) (fs : Files)
    (conv3 : Srs → Srs → Point3 → Option Point3) (enc : Encoder) (tileId : TileId)
    (nodeInfo : NodeInfo) :
    (1 ≤ enc.modelCache_.cacheLimit_ →
      (∀ id ∈ enc.tileMap_.source tileId, 0 ≤ id ∧ id < enc.modelCache_.input_.length) →
      (∃ x ∈ enc.tileMap_.source tileId, x ∉ enc.modelCache_.ids
        ∧ ∀ t, inputAt enc.modelCache_.input_ x = some t →
            fs.readFile t.node.modelPath = none) →
      ∃ c, enc.generate ops fs conv3 tileId nodeInfo = .threw c)
    ∧ (∀ c srcModels,
        getModels fs enc.modelCache_ (enc.tileMap_.source tileId) = .returned c srcModels →
        (∃ m ∈ srcModels, ∃ sm ∈ m.mesh,
          warpInPlace (conv3 enc.inputSrs_ nodeInfo.srs) sm = none) →
        ∀ c1 r, enc.generate ops fs conv3 tileId nodeInfo ≠ .returned c1 r) := by
  constructor
  · intro hlimit hids hfail
    obtain ⟨c, hc⟩ := getModels_throws fs _ enc.modelCache_ hlimit hids hfail
    obtain ⟨x, hx, -⟩ := hfail
    have hne : (enc.tileMap_.source tileId).isEmpty = false := by
      cases h : enc.tileMap_.source tileId with
      | nil => rw [h] at hx; simp at hx
      | cons a l => rfl
    exact ⟨c, by simp only [Encoder.generate, hne, Bool.false_eq_true, if_false, hc]⟩
  · intro c srcModels hgm hfail c1 r
    have hne : (enc.tileMap_.source tileId).isEmpty = false := by
      cases h : enc.tileMap_.source tileId with
      | nil =>
        rw [h] at hgm
        simp only [getModels, Outcome.returned.injEq] at hgm
        obtain ⟨m, hm, -⟩ := hfail
        rw [← hgm.2] at hm
        simp at hm
      | cons a l => rfl
    simp only [Encoder.generate, hne, Bool.false_eq_true, if_false, hgm]
    cases hadd : addModels ops (conv3 enc.inputSrs_ nodeInfo.srs)
        (conv3 nodeInfo.srs enc.referenceFrame.physicalSrs) nodeInfo.extents srcModels
        ([], []) with
    | undefined => simp
    | threw u => simp
    | returned u out =>
      exact absurd hadd (addModels_not_returned ops _ _ _ srcModels hfail _ out)

/-- C8, witness of the amended claim: the demo encoder at tile 3-0-3 with the
model file of piece 1 unreadable; `generate` throws. -/
theorem generate_propagates_failure_witness :
    ∃ c, demoEncoder.generate demoOps demoFilesNoB demoConv3 ⟨3, 0, 3⟩ demoNodeInfo = .threw c :=
  (generate_propagates_failure demoOps demoFilesNoB demoConv3 demoEncoder ⟨3, 0, 3⟩
    demoNodeInfo).1 (by decide) (by decide!)
    ⟨1, by decide!, by simp [demoEncoder, ModelCache.create, ModelCache.ids], by
      intro t ht
      have h2 : inputAt demoEncoder.modelCache_.input_ 1 = some demoInput[1] := rfl
      rw [h2] at ht
      cases ht
      rfl⟩

/-- C8, counterexample to the claim as stated: the demo encoder at tile
3-0-3, whose source list holds the ids 0 and 1, with the model file of piece
1 unreadable. The load of piece 1 fails and `generate` throws and returns no
result, whereas for the source list without piece 1 `generate` returns a
tile. -/
theorem generate_isolation_counterexample :
    demoEncoder.tileMap_.source ⟨3, 0, 3⟩ = [0, 1]
    ∧ (Model.create 1).load demoFilesNoB "b.dae" ⟨0, 0, 0⟩ = none
    ∧ (demoEncoder.generate demoOps demoFilesNoB demoConv3 ⟨3, 0, 3⟩ demoNodeInfo).isThrew = true
    ∧ (demoEncoder.generate demoOps demoFilesNoB demoConv3 ⟨3, 0, 3⟩ demoNodeInfo).value? = none
    ∧ demoEncoderWithoutB.tileMap_.source ⟨3, 0, 3⟩ = [0]
    ∧ ((demoEncoderWithoutB.generate demoOps demoFilesNoB demoConv3 ⟨3, 0, 3⟩
        demoNodeInfo).value?.map (fun r => decide (r ≠ .noDataYet))) = some true := by
  decide!

/-- C9, the code at a failing input: capacity 2, the demo input, `get(0)`
twice. While the model file cannot be read the first `get(0)` throws and
leaves in `cache_` the model it created; the second `get(0)` finds that model,
counts a hit and returns it, with no mesh and no texture, whether the file
still cannot be read or can be read by then, in which case the loader would
produce a model with one submesh and one texture. -/
theorem get_hit_after_failed_load :
    ∃ c1 c2 c3 m loaded,
      (ModelCache.create demoInput 2).get demoNoFiles 0 = .threw c1
      ∧ c1.ids = [0]
      ∧ c1.get demoNoFiles 0 = .returned c2 m
      ∧ c1.get demoFiles 0 = .returned c3 m
      ∧ c2.hitCnt_ = 1 ∧ c3.hitCnt_ = 1 ∧ c3.missCnt_ = 1
      ∧ m = Model.create 0 ∧ m.mesh = [] ∧ m.atlas = []
      ∧ (Model.create 0).load demoNoFiles "a.dae" ⟨0, 0, 0⟩ = none
      ∧ (Model.create 0).load demoFiles "a.dae" ⟨0, 0, 0⟩ = some loaded
      ∧ loaded.mesh.length = 1 ∧ loaded.atlas.length = 1 :=
  ⟨_, _, _, _, _, rfl, rfl, rfl, rfl, rfl, rfl, rfl, rfl, rfl, rfl, rfl, rfl, rfl, rfl⟩

end EncoderFacts

section OrderFacts

variable (subtreeRoot : ReferenceFrame → TileId → NodeId)

variable (csConvertor : Srs → Srs → Point2 → Option Point2)

theorem keys_pushBack (si : List (TileId × List ℤ)) (k : TileId) (v : ℤ) :
    keys (pushBack si k v) = if k ∈ keys si then keys si else keys si ++ [k] := by
  induction si with
  | nil => simp [keys, pushBack]
  | cons e rest ih =>
    obtain ⟨k1, vs⟩ := e
    simp only [keys] at ih
    by_cases h1 : k1 = k
    · simp [keys, pushBack, h1]
    · have h2 : ¬ k = k1 := fun h => h1 h.symm
      simp only [keys, pushBack, h1, if_false, List.map_cons, List.mem_cons, h2, false_or, ih]
      split <;> simp

theorem wellKeyed_pushBack (si : List (TileId × List ℤ)) (k : TileId) (v : ℤ)
    (h : wellKeyed si) : wellKeyed (pushBack si k v) := by
  constructor
  · rw [keys_pushBack]
    split
    · exact h.1
    · next hk =>
      exact List.Nodup.append h.1 (List.nodup_singleton k)
        (by simpa [List.disjoint_singleton] using hk)
  · have hne := h.2
    clear h
    induction si with
    | nil => simp [pushBack]
    | cons e rest ih =>
      obtain ⟨k1, vs⟩ := e
      by_cases h1 : k1 = k
      · intro e he
        simp only [pushBack, h1, if_true, List.mem_cons] at he
        rcases he with rfl | he
        · simp
        · exact hne e (List.mem_cons_of_mem _ he)
      · intro e he
        simp only [pushBack, h1, if_false, List.mem_cons] at he
        rcases he with rfl | he
        · exact hne _ (List.mem_cons_self _ _)
        · exact ih (fun e he => hne e (List.mem_cons_of_mem _ he)) e he

theorem wellKeyed_foldl_add (tile : InputTile) (ids : List TileId) (m : TileMapping)
    (h : wellKeyed m.sourceInfo_) :
    wellKeyed (ids.foldl (fun m id => TileMapping.add tile id m) m).sourceInfo_ := by
  induction ids generalizing m with
  | nil => exact h
  | cons id ids ih => exact ih _ (wellKeyed_pushBack _ _ _ h)

theorem wellKeyed_foldl_mapTile (inputSRS : Srs) (dstRf : ReferenceFrame) (margin : Double)
    (l : List InputTile) (m : TileMapping) (h : wellKeyed m.sourceInfo_) :
    wellKeyed (l.foldl (TileMapping.mapTile subtreeRoot csConvertor inputSRS dstRf margin)
      m).sourceInfo_ := by
  induction l generalizing m with
  | nil => exact h
  | cons tile l ih =>
    apply ih
    rw [mapTile_eq]
    exact wellKeyed_foldl_add tile _ m h

theorem wellKeyed_build (inputTiles : List InputTile) (inputSRS : Srs) (dstRf : ReferenceFrame)
    (margin : Double) :
    wellKeyed (TileMapping.build subtreeRoot csConvertor inputTiles inputSRS dstRf
      margin).sourceInfo_ :=
  wellKeyed_foldl_mapTile subtreeRoot csConvertor inputSRS dstRf margin inputTiles
    ⟨[], ⟨[]⟩, ⟨[]⟩⟩ ⟨List.nodup_nil, by simp⟩

theorem find_eq_none_iff (si : List (TileId × List ℤ)) (t : TileId) :
    find si t = none ↔ t ∉ keys si := by
  induction si with
  | nil => simp [find, keys]
  | cons e rest ih =>
    obtain ⟨k, vs⟩ := e
    simp only [keys] at ih
    by_cases h : k = t
    · simp [find, keys, h]
    · have h2 : ¬ t = k := fun h' => h h'.symm
      simp [find, keys, h, h2, ih]

theorem find_mem (si : List (TileId × List ℤ)) (t : TileId) (vs : List ℤ)
    (h : find si t = some vs) : (t, vs) ∈ si := by
  induction si with
  | nil => simp [find] at h
  | cons e rest ih =>
    obtain ⟨k, ws⟩ := e
    by_cases hk : k = t
    · simp only [find, hk, if_true, Option.some.injEq] at h
      subst h
      subst hk
      exact List.mem_cons_self _ _
    · simp only [find, hk, if_false] at h
      exact List.mem_cons_of_mem _ (ih h)

theorem source_eq_nil_iff (m : TileMapping) (h : wellKeyed m.sourceInfo_) (t : TileId) :
    m.source t = [] ↔ find m.sourceInfo_ t = none := by
  unfold TileMapping.source
  cases hf : find m.sourceInfo_ t with
  | none => simp
  | some vs =>
    simp only [reduceCtorEq, iff_false]
    exact h.2 _ (find_mem _ _ _ hf)

theorem size_eq_card (m : TileMapping) (h : wellKeyed m.sourceInfo_) (S : Finset TileId)
    (hS : ∀ t, t ∈ S ↔ m.source t ≠ []) : m.size = S.card := by
  have hSk : S = (keys m.sourceInfo_).toFinset := by
    ext t
    rw [hS t, List.mem_toFinset, ne_eq, source_eq_nil_iff m h t, find_eq_none_iff, not_not]
  rw [hSk, List.toFinset_card_of_nodup h.1]
  simp [TileMapping.size, keys]

theorem indexRange_nodup (lo hi : ℤ) : (indexRange lo hi).Nodup := by
  unfold indexRange
  apply List.Nodup.map
  · intro a b hab
    simpa using hab
  · exact List.nodup_range _

theorem cells_nodup (lod : Lod) (r : Option TileRange) : (cells lod r).Nodup := by
  cases r with
  | none => exact List.nodup_nil
  | some r =>
    unfold cells
    rw [List.nodup_flatMap]
    constructor
    · intro j _
      apply List.Nodup.map
      · intro a b hab
        simpa using hab
      · exact indexRange_nodup _ _
    · apply (indexRange_nodup r.ll.y r.ur.y).pairwise_of_forall_ne
      intro j1 _ j2 _ hne
      simp only [Function.onFun]
      rw [List.disjoint_left]
      intro t h1 h2
      simp only [List.mem_map] at h1 h2
      obtain ⟨i1, _, rfl⟩ := h1
      obtain ⟨i2, _, h⟩ := h2
      simp only [TileId.mk.injEq, true_and] at h
      exact hne h.2.symm

theorem nodeTiles_nodup (inputSRS : Srs) (dstRf : ReferenceFrame) (margin : Double)
    (tile : InputTile) (node : Node) :
    (nodeTiles subtreeRoot csConvertor inputSRS dstRf margin tile node).Nodup := by
  unfold nodeTiles
  split
  · exact List.nodup_nil
  · simp only
    split
    · exact List.nodup_nil
    · exact (cells_nodup _ _).filter _

theorem tileTiles_nodup (inputSRS : Srs) (dstRf : ReferenceFrame) (margin : Double)
    (tile : InputTile) (hnodes : (dstRf.nodes.map (fun n => n.id)).Nodup) :
    (tileTiles subtreeRoot csConvertor inputSRS dstRf margin tile).Nodup := by
  unfold tileTiles
  rw [List.nodup_flatMap]
  refine ⟨fun node _ => nodeTiles_nodup subtreeRoot csConvertor inputSRS dstRf margin tile node, ?_⟩
  have hp : dstRf.nodes.Pairwise (fun a b => a.id ≠ b.id) := by
    rw [List.Nodup, List.pairwise_map] at hnodes
    exact hnodes
  refine hp.imp ?_
  intro a b hab
  simp only [Function.onFun]
  rw [List.disjoint_left]
  intro t h1 h2
  have r1 := ((mem_nodeTiles subtreeRoot csConvertor inputSRS dstRf margin tile a t).1 h1).2.2.1
  have r2 := ((mem_nodeTiles subtreeRoot csConvertor inputSRS dstRf margin tile b t).1 h2).2.2.1
  exact hab (r1.symm.trans r2)

theorem filter_eq_of_nodup (l : List TileId) (t : TileId) (h : l.Nodup) :
    l.filter (fun id => decide (id = t)) = [] ∨ l.filter (fun id => decide (id = t)) = [t] := by
  induction l with
  | nil => exact Or.inl rfl
  | cons a l ih =>
    rw [List.nodup_cons] at h
    by_cases ha : a = t
    · right
      subst ha
      have : l.filter (fun id => decide (id = a)) = [] := by
        rw [List.filter_eq_nil_iff]
        intro b hb
        simp only [decide_eq_true_eq]
        rintro rfl
        exact h.1 hb
      simp [List.filter_cons, this]
    · simp only [List.filter_cons, ha, decide_False, Bool.false_eq_true, if_false]
      exact ih h.2

theorem source_sublist (inputTiles : List InputTile) (inputSRS : Srs) (dstRf : ReferenceFrame)
    (margin : Double) (hnodes : (dstRf.nodes.map (fun n => n.id)).Nodup) (t : TileId) :
    ((TileMapping.build subtreeRoot csConvertor inputTiles inputSRS dstRf margin).source
      t).Sublist (inputTiles.map (fun tile => tile.id)) := by
  rw [source_build]
  induction inputTiles with
  | nil => exact List.Sublist.slnil
  | cons tile l ih =>
    rw [List.flatMap_cons, List.map_cons]
    rcases filter_eq_of_nodup _ t
      (tileTiles_nodup subtreeRoot csConvertor inputSRS dstRf margin tile hnodes) with h | h
    · rw [h]
      exact List.Sublist.cons _ ih
    · rw [h]
      exact List.Sublist.cons₂ _ ih

/-- C13. With piece ids that increase strictly along the input list and
division nodes with pairwise distinct ids, the list `source` returns for any
tile id is strictly increasing and is a sublist of the ids of the input list,
so no piece is listed twice, also when several nodes accept it. `source`
returns the empty list exactly for the tile ids no piece was appended to,
which are the tile ids that are no key of `sourceInfo_`, and `size()` is the
number of tile ids with a non-empty list. -/
theorem source_strictly_increasing (inputTiles : List InputTile) (inputSRS : Srs)
    (dstRf : ReferenceFrame) (margin : Double)
    (hids : (inputTiles.map (fun tile => tile.id)).Pairwise (fun a b => a < b))
    (hnodes : (dstRf.nodes.map (fun n => n.id)).Nodup) :
    (∀ t, ((TileMapping.build subtreeRoot csConvertor inputTiles inputSRS dstRf margin).source
        t).Pairwise (fun a b => a < b))
    ∧ (∀ t, ((TileMapping.build subtreeRoot csConvertor inputTiles inputSRS dstRf margin).source
        t).Sublist (inputTiles.map (fun tile => tile.id)))
    ∧ (∀ t, (TileMapping.build subtreeRoot csConvertor inputTiles inputSRS dstRf margin).source t
          = [] ↔
        ∀ tile ∈ inputTiles, ∀ node ∈ dstRf.nodes,
          t ∉ nodeTiles subtreeRoot csConvertor inputSRS dstRf margin tile node)
    ∧ (∀ t, (TileMapping.build subtreeRoot csConvertor inputTiles inputSRS dstRf margin).source t
          = [] ↔
        find (TileMapping.build subtreeRoot csConvertor inputTiles inputSRS dstRf
          margin).sourceInfo_ t = none)
    ∧ (∀ S : Finset TileId,
        (∀ t, t ∈ S ↔
          (TileMapping.build subtreeRoot csConvertor inputTiles inputSRS dstRf margin).source t
            ≠ []) →
        (TileMapping.build subtreeRoot csConvertor inputTiles inputSRS dstRf margin).size
          = S.card) := by
  have hwk := wellKeyed_build subtreeRoot csConvertor inputTiles inputSRS dstRf margin
  refine ⟨fun t => List.Pairwise.sublist (source_sublist subtreeRoot csConvertor inputTiles
      inputSRS dstRf margin hnodes t) hids,
    fun t => source_sublist subtreeRoot csConvertor inputTiles inputSRS dstRf margin hnodes t,
    ?_, fun t => source_eq_nil_iff _ hwk t, fun S hS => size_eq_card _ hwk S hS⟩
  intro t
  rw [List.eq_nil_iff_forall_not_mem]
  constructor
  · intro h tile htile node hnode hmem
    exact h tile.id ((mem_source_build subtreeRoot csConvertor inputTiles inputSRS dstRf margin
      t tile.id).2 ⟨tile, htile, rfl, node, hnode, hmem⟩)
  · intro h v hv
    obtain ⟨tile, htile, -, node, hnode, hmem⟩ :=
      (mem_source_build subtreeRoot csConvertor inputTiles inputSRS dstRf margin t v).1 hv
    exact h tile htile node hnode hmem

end OrderFacts

/-- C13, witness: the three demo input tiles with ids 0, 1, 2 in the nested
demo frame, whose two nodes both accept every tile; tile 3-1-3 lists 0 and
1, once each and in order. -/
theorem source_strictly_increasing_witness :
    (TileMapping.build findSubtreeRoot demoConvAll demoInput "src" demoNested 1).source ⟨3, 1, 3⟩
      = [0, 1]
    ∧ ((TileMapping.build findSubtreeRoot demoConvAll demoInput "src" demoNested 1).source
        ⟨3, 1, 3⟩).Pairwise (fun a b => a < b)
    ∧ ((TileMapping.build findSubtreeRoot demoConvAll demoInput "src" demoNested 1).source
        ⟨3, 1, 3⟩).Sublist [0, 1, 2] :=
  have h := source_strictly_increasing findSubtreeRoot demoConvAll demoInput "src" demoNested 1
    (by decide) (by decide)
  ⟨by decide!, h.1 ⟨3, 1, 3⟩, h.2.1 ⟨3, 1, 3⟩⟩

section AtlasFacts

/-- C11, the code at a failing input. When the texture of the only mesh of a
scene cannot be read, `Model::load` returns normally with one submesh and no
texture, and `generate` on a tile that model contributes to looks up atlas
index 0 past the end of the atlas. When, of two meshes, only the texture of
the first cannot be read, `load` returns a model with two submeshes whose
only texture, at index 0, is the image read for submesh 1, and `generate`
looks up atlas index 1 past the end of the atlas. -/
theorem texture_alignment_fails :
    (∃ m, (Model.create 0).load demoFilesNoTex "a.dae" ⟨0, 0, 0⟩ = some m
      ∧ m.mesh.length = 1 ∧ m.atlas.length = 0)
    ∧ (demoEncoder.generate demoOps demoFilesNoTex demoConv3 ⟨3, 0, 3⟩ demoNodeInfo).isUndefined
        = true
    ∧ (∃ m, (Model.create 0).load demoFilesNoT0 "a.dae" ⟨0, 0, 0⟩ = some m
      ∧ m.mesh.length = 2 ∧ m.atlas = [[1]]
      ∧ demoFilesNoT0.readBinary (demoFilesNoT0.sibling "a.dae" "t1.jpg") = some [1])
    ∧ (demoEncoder.generate demoOps demoFilesNoT0 demoConv3 ⟨3, 0, 3⟩ demoNodeInfo).isUndefined
        = true :=
  ⟨⟨_, rfl, rfl, rfl⟩, by decide!, ⟨_, rfl, rfl, rfl, rfl⟩, by decide!⟩

end AtlasFacts

section RunFacts

theorem mkTiles_append (n : ℕ) (a b : List (LodTreeNode × ℕ)) :
    mkTiles n (a ++ b) = mkTiles n a ++ mkTiles (n + a.length) b := by
  induction a generalizing n with
  | nil => simp [mkTiles]
  | cons p a ih =>
    have h : n + 1 + a.length = n + (a.length + 1) := by omega
    simp only [List.cons_append, mkTiles, List.append_eq, ih, List.length_cons, h]

theorem length_mkTiles (n : ℕ) (ps : List (LodTreeNode × ℕ)) : (mkTiles n ps).length = ps.length := by
  induction ps generalizing n with
  | nil => rfl
  | cons p ps ih => simp [mkTiles, ih]

mutual
theorem collectInputTiles_eq : ∀ (node : LodTreeNode) (depth : ℕ) (list : List InputTile),
    collectInputTiles node depth list
      = list ++ mkTiles list.length
          ((preorder node depth).filter (fun p => decide (p.1.modelPath ≠ "")))
  | .mk radius minRange origin modelPath children, depth, list => by
    rw [collectInputTiles, collectChildren_eq children (depth + 1), preorder]
    by_cases h : modelPath = ""
    · simp [h, List.filter_cons, LodTreeNode.modelPath]
    · simp [h, List.filter_cons, LodTreeNode.modelPath, mkTiles, List.append_assoc]
theorem collectChildren_eq : ∀ (children : List LodTreeNode) (depth : ℕ) (list : List InputTile),
    collectChildren children depth list
      = list ++ mkTiles list.length
          ((preorderList children depth).filter (fun p => decide (p.1.modelPath ≠ "")))
  | [], depth, list => by simp [collectChildren, preorderList, mkTiles]
  | ch :: rest, depth, list => by
    rw [collectChildren, collectInputTiles_eq ch depth list, collectChildren_eq rest depth,
      preorderList, List.filter_append, mkTiles_append]
    simp [length_mkTiles, List.append_assoc]
end

theorem collectBlocks_eq (blocks : List LodTreeNode) :
    collectBlocks blocks = mkTiles 0 (modelNodes blocks) := by
  have h : ∀ (bs : List LodTreeNode) (list : List InputTile),
      bs.foldl (fun list block => collectInputTiles block 0 list) list
        = collectChildren bs 0 list := by
    intro bs
    induction bs with
    | nil => intro list; rfl
    | cons b bs ih => intro list; rw [List.foldl_cons, ih, collectChildren]
  rw [collectBlocks, h, collectChildren_eq]
  rfl

theorem getElem?_mkTiles (n : ℕ) (ps : List (LodTreeNode × ℕ)) (i : ℕ) :
    (mkTiles n ps)[i]? = (ps[i]?).map (fun p => InputTile.create ((n + i : ℕ) : ℤ) p.2 p.1) := by
  induction ps generalizing n i with
  | nil => simp [mkTiles]
  | cons p ps ih =>
    cases i with
    | zero => simp [mkTiles]
    | succ i =>
      have h : n + 1 + i = n + (i + 1) := by omega
      simp [mkTiles, ih, h]

theorem map_mkTiles (n : ℕ) (ps : List (LodTreeNode × ℕ)) :
    (mkTiles n ps).map (fun t => (t.node, t.depth)) = ps.map (fun p => (p.1, (p.2 : ℤ))) := by
  induction ps generalizing n with
  | nil => rfl
  | cons p ps ih => simp [mkTiles, ih, InputTile.create]

theorem getElem?_runInputTiles (extentsOf : InputTile → Extents2 × Double × Double)
    (blocks : List LodTreeNode) (i : ℕ) (tile : InputTile)
    (h : (runInputTiles extentsOf blocks)[i]? = some tile) :
    ∃ p, (modelNodes blocks)[i]? = some p ∧ tile.id = i ∧ tile.node = p.1
      ∧ tile.depth = p.2 ∧ tile.dstLod = 15 + p.2 := by
  simp only [runInputTiles, assignLod, measureTiles, collectBlocks_eq, List.getElem?_map,
    getElem?_mkTiles, Option.map_map] at h
  cases hp : (modelNodes blocks)[i]? with
  | none => simp [hp] at h
  | some p =>
    simp only [hp, Option.map_some', Function.comp_apply, Option.some.injEq] at h
    subst h
    exact ⟨p, rfl, by simp [InputTile.create], rfl, rfl, rfl⟩

theorem get_miss_value (fs : Files) (c : ModelCache) (v : ℤ) (tile : InputTile)
    (hlimit : 1 ≤ c.cacheLimit_) (hv : v ∉ c.ids) (ht : inputAt c.input_ v = some tile) :
    (c.get fs v).value? = (Model.create v).load fs tile.node.modelPath tile.node.origin := by
  have hfind : c.cache_.find? (fun ptr => decide (ptr.id = v)) = none :=
    (find?_id_none c.cache_ v).2 hv
  simp only [ModelCache.get, hfind, releaseLoop_eq_take c.cacheLimit_ hlimit
    (c.cache_.length + 1) c.cache_ (Nat.lt_succ_self _), ht]
  cases (Model.create v).load fs tile.node.modelPath tile.node.origin <;> rfl

/-- C15. The list `run` builds with `collectInputTiles` over the blocks holds
the nodes with a non-empty model path in depth-first pre-order, each with its
distance from the root of its block as depth, and the element at index `i`
has id `i`. Hence every piece id `v` in a source list of the tile mapping of
the encoder `run` creates is a valid index into the input list, the input
tile at that index has id `v` and is the node number `v` of that order, and a
`get(v)` that misses the cache returns what `Model::load` gives for the model
path and the origin of that node. -/
theorem collectInputTiles_numbers_by_position (blocks : List LodTreeNode) :
    (collectBlocks blocks).map (fun t => (t.node, t.depth))
      = (modelNodes blocks).map (fun p => (p.1, (p.2 : ℤ)))
    ∧ (∀ (i : ℕ) (tile : InputTile), (collectBlocks blocks)[i]? = some tile → tile.id = i)
    ∧ (∀ (extentsOf : InputTile → Extents2 × Double × Double)
        (subtreeRoot : ReferenceFrame → TileId → NodeId)
        (csConvertor : Srs → Srs → Point2 → Option Point2) (referenceFrame : ReferenceFrame)
        (inputSrs : Srs) (config : Config) (t : TileId) (v : ℤ),
        v ∈ (Encoder.create subtreeRoot csConvertor referenceFrame
              (runInputTiles extentsOf blocks) inputSrs config).tileMap_.source t →
        ∃ p tile, 0 ≤ v ∧ (modelNodes blocks)[v.toNat]? = some p
          ∧ inputAt (Encoder.create subtreeRoot csConvertor referenceFrame
              (runInputTiles extentsOf blocks) inputSrs config).modelCache_.input_ v = some tile
          ∧ tile.id = v ∧ tile.node = p.1
          ∧ ∀ (fs : Files) (c : ModelCache),
              c.input_.map (fun x => x.node)
                = (runInputTiles extentsOf blocks).map (fun x => x.node) →
              1 ≤ c.cacheLimit_ → v ∉ c.ids →
              (c.get fs v).value? = (Model.create v).load fs p.1.modelPath p.1.origin) := by
  refine ⟨by rw [collectBlocks_eq, map_mkTiles], ?_, ?_⟩
  · intro i tile h
    rw [collectBlocks_eq, getElem?_mkTiles] at h
    cases hp : (modelNodes blocks)[i]? with
    | none => simp [hp] at h
    | some p =>
      simp only [hp, Option.map_some', Option.some.injEq] at h
      subst h
      simp [InputTile.create]
  · intro extentsOf subtreeRoot csConvertor referenceFrame inputSrs config t v hv
    simp only [Encoder.create, ModelCache.create] at hv ⊢
    obtain ⟨tile, htile, hid, -⟩ := (mem_source_build subtreeRoot csConvertor _ _ _ _ t v).1 hv
    obtain ⟨i, hi⟩ := List.mem_iff_getElem?.1 htile
    obtain ⟨p, hp, hidi, hnode, -, -⟩ := getElem?_runInputTiles extentsOf blocks i tile hi
    have hvi : v = (i : ℤ) := hid.symm.trans hidi
    subst hvi
    refine ⟨p, tile, Int.ofNat_nonneg i, by simpa using hp, by simpa [inputAt] using hi, hidi,
      hnode, ?_⟩
    intro fs c hc hlimit hmiss
    have h1 : (c.input_.map (fun x => x.node))[i]? = some p.1 := by
      rw [hc, List.getElem?_map, hi, Option.map_some', hnode]
    rw [List.getElem?_map] at h1
    cases hci : c.input_[i]? with
    | none => simp [hci] at h1
    | some tile1 =>
      simp only [hci, Option.map_some', Option.some.injEq] at h1
      have := get_miss_value fs c (i : ℤ) tile1 hlimit hmiss (by simpa [inputAt] using hci)
      rw [this, h1]

/-- C14, the code at a failing input: one block whose root has no model path
and whose child has one. The only input tile has id 0 and depth 1; the area
vector is empty, one element is appended, and `area[1]` is past the end of
the vector, whatever `calcModelExtents` computed. -/
theorem area_access_past_end :
    (collectBlocks [demoBlock]).map (fun t => (t.id, t.depth)) = [(0, 1)]
    ∧ (∀ extentsOf : InputTile → Extents2 × Double × Double,
        accumulateArea (measureTiles extentsOf (collectBlocks [demoBlock])) [] = none) :=
  ⟨by decide, fun _ => rfl⟩

/-- C15, witness: a block of four nodes with models; the tiles get the ids
0 to 3 in pre-order, and piece 1, which tile 16-4096-28672 lists, is the node
with model path "a.dae". -/
theorem collectInputTiles_numbers_by_position_witness :
    (collectBlocks [demoTree]).map (fun t => (t.id, t.depth, t.node.modelPath))
      = [(0, 0, "r.dae"), (1, 1, "a.dae"), (2, 2, "aa.dae"), (3, 1, "b.dae")]
    ∧ ∃ p tile, (0 : ℤ) ≤ 1 ∧ (modelNodes [demoTree])[(1 : ℤ).toNat]? = some p
        ∧ inputAt (Encoder.create findSubtreeRoot demoConvWest demoFrame
            (runInputTiles demoExtentsOf [demoTree]) "src" ⟨"demo", 85⟩).modelCache_.input_ 1
            = some tile
        ∧ tile.id = 1 ∧ tile.node = p.1
        ∧ ∀ (fs : Files) (c : ModelCache),
            c.input_.map (fun x => x.node)
              = (runInputTiles demoExtentsOf [demoTree]).map (fun x => x.node) →
            1 ≤ c.cacheLimit_ → (1 : ℤ) ∉ c.ids →
            (c.get fs 1).value? = (Model.create 1).load fs p.1.modelPath p.1.origin :=
  ⟨by decide,
   (collectInputTiles_numbers_by_position [demoTree]).2.2 demoExtentsOf findSubtreeRoot
     demoConvWest demoFrame "src" ⟨"demo", 85⟩ ⟨16, 4096, 28672⟩ 1 (by decide!)⟩

end RunFacts

end Lodtree2vts
